import Mathlib

/-!
Verification of the cohort-builder mapping engine, conversation state machine
and artifact cache.  The definitions below are shallow embeddings of the
Python sources under `backend/api/services/agent/agent_service.py`,
`backend/api/services/agent/conversational_agent.py` and
`backend/api/storage/atlas_file_cache.py`.  LLM and embedding collaborators
are modelled as oracle parameters; the calls the engine issues towards them
are tracked explicitly where a claim is about which calls are made.
-/

set_option maxHeartbeats 1000000

namespace CohortBuilder

/-! ### Generic helpers: association lists, substring counting, lowering -/

/-- `dict.get(k)` over an association list (first binding wins; later inserts
are modelled by consing in front). -/
def alistGet? {α : Type} (l : List (String × α)) (k : String) : Option α :=
  match l with
  | [] => none
  | p :: rest => if p.1 = k then some p.2 else alistGet? rest k

/-- Number of positions of `s` at which `pat` occurs as a leading block;
for a nonempty `pat` this is the number of substring occurrences. -/
def countSubl (pat : List Char) : List Char → Nat
  | [] => 0
  | c :: rest => (if pat <+: (c :: rest) then 1 else 0) + countSubl pat rest

/-- Substring-occurrence count lifted to `String`. -/
def countTok (pat s : String) : Nat := countSubl pat.data s.data

/-- Python's `needle in hay` substring test. -/
def isSubstr (needle hay : String) : Bool := decide (needle.data <:+: hay.data)

/-- Python's `str.lower()` (ASCII model). -/
def lowerStr (s : String) : String := ⟨s.data.map Char.toLower⟩

/-- Python's `str.strip()`. -/
def stripStr (s : String) : String :=
  ⟨((s.data.dropWhile Char.isWhitespace).reverse.dropWhile Char.isWhitespace).reverse⟩

/-- Order-preserving de-duplication of a string list, keeping first
occurrences; models reading a Python `set` in insertion order. -/
def dedupStrAux (seen : List String) : List String → List String
  | [] => []
  | s :: rest =>
    if s ∈ seen then dedupStrAux seen rest else s :: dedupStrAux (s :: seen) rest

def dedupStr (l : List String) : List String := dedupStrAux [] l

/-! ### Substring-count lemmas -/

theorem countSubl_pos_iff {pat s : List Char} (hne : pat ≠ []) :
    0 < countSubl pat s ↔ pat <:+: s := by
  induction s with
  | nil =>
    simp only [countSubl, Nat.lt_irrefl, false_iff, List.infix_nil]
    exact hne
  | cons c rest ih =>
    simp only [countSubl]
    by_cases hp : pat <+: (c :: rest)
    · simp only [if_pos hp]
      constructor
      · intro _; exact hp.isInfix
      · intro _; omega
    · simp only [if_neg hp, Nat.zero_add, ih, List.infix_cons_iff]
      constructor
      · intro h; exact Or.inr h
      · rintro (h1 | h2)
        · exact absurd h1 hp
        · exact h2

theorem countSubl_eq_zero_of_part {pat s t : List Char} (hne : pat ≠ [])
    (hz : countSubl pat s = 0) (ht : t <:+: s) : countSubl pat t = 0 := by
  by_contra h
  have h1 : 0 < countSubl pat t := Nat.pos_of_ne_zero h
  have h2 : pat <:+: t := (countSubl_pos_iff hne).mp h1
  have h3 : pat <:+: s := h2.trans ht
  have h4 : 0 < countSubl pat s := (countSubl_pos_iff hne).mpr h3
  omega

theorem prefix_append_sep {pat l m : List Char} {c : Char} (hc : c ∉ pat) :
    pat <+: (l ++ c :: m) ↔ pat <+: l := by
  induction pat generalizing l with
  | nil => simp
  | cons p ps ih =>
    cases l with
    | nil =>
      simp only [List.nil_append]
      constructor
      · intro h
        rcases List.cons_prefix_cons.mp h with ⟨hpc, _⟩
        exact absurd (hpc ▸ List.mem_cons_self p ps) hc
      · intro h
        exact absurd (List.eq_nil_of_prefix_nil h) (by simp)
    | cons x l' =>
      simp only [List.cons_append, List.cons_prefix_cons]
      constructor
      · rintro ⟨hpx, hps⟩
        exact ⟨hpx, (ih (fun hmem => hc (List.mem_cons_of_mem p hmem))).mp hps⟩
      · rintro ⟨hpx, hps⟩
        exact ⟨hpx, (ih (fun hmem => hc (List.mem_cons_of_mem p hmem))).mpr hps⟩

/-- Occurrence counting splits at a separator character that does not occur
in the pattern. -/
theorem countSubl_append_sep {pat : List Char} {c : Char} (hne : pat ≠ [])
    (hc : c ∉ pat) (a b : List Char) :
    countSubl pat (a ++ c :: b) = countSubl pat a + countSubl pat b := by
  induction a with
  | nil =>
    simp only [List.nil_append, countSubl]
    have hp : ¬ pat <+: (c :: b) := by
      intro h
      match pat, h with
      | p :: ps, h =>
        rcases List.cons_prefix_cons.mp h with ⟨hpc, _⟩
        exact hc (hpc ▸ List.mem_cons_self p ps)
      | [], _ => exact hne rfl
    simp [if_neg hp]
  | cons x a' ih =>
    have hiff : pat <+: (x :: (a' ++ c :: b)) ↔ pat <+: (x :: a') := by
      have := @prefix_append_sep pat (x :: a') b c hc
      simpa using this
    show (if pat <+: x :: (a' ++ c :: b) then 1 else 0) + countSubl pat (a' ++ c :: b)
        = ((if pat <+: x :: a' then 1 else 0) + countSubl pat a') + countSubl pat b
    rw [ih]
    by_cases hp : pat <+: x :: a'
    · rw [if_pos (hiff.mpr hp), if_pos hp]; omega
    · rw [if_neg (fun h => hp (hiff.mp h)), if_neg hp]; omega

/-- A single leading separator character drops out of occurrence counts. -/
theorem countSubl_cons_sep {pat : List Char} {c : Char} (hne : pat ≠ [])
    (hc : c ∉ pat) (b : List Char) :
    countSubl pat (c :: b) = countSubl pat b := by
  have := countSubl_append_sep hne hc [] b
  simpa [countSubl] using this

/-! ### Concept/value resolution (`AgentService._search_concepts`)

The concept table `concept_df` is a list of rows; `concept_lookup` is the
concept-embedding index, represented by the list of context keys that carry
an embedding.  The LLM chooser (`_choose_concepts_with_llm`) and the cosine
similarities produced by `_get_embedding` + `cosine_similarity` are oracle
parameters; the outgoing service calls are returned as an effect list. -/

structure ConceptRow where
  concept_name : String
  table_name : String
  field_name : String
  concept_with_context : String
deriving DecidableEq

inductive ConceptCall where
  | embed (text : String)
  | llmChoose (entity : String) (candidates : List String)
deriving DecidableEq

structure SearchOracle where
  llm : String → String → String → List String → Option (List String)
  sim : String → String → Int

/-- The `concept_df` filter on `table_name` and `field_name`. -/
def conceptSubset (df : List ConceptRow) (table f : String) : List ConceptRow :=
  df.filter (fun r => r.table_name == table && r.field_name == f)

/-- `DataFrame.drop_duplicates(subset=['concept_name'])`: keep the first row
for each concept name. -/
def dropDuplicatesByName (seen : List String) : List ConceptRow → List ConceptRow
  | [] => []
  | r :: rest =>
    if r.concept_name ∈ seen then dropDuplicatesByName seen rest
    else r :: dropDuplicatesByName (r.concept_name :: seen) rest

/-- Number of distinct concept values recorded for `table.f`. -/
def distinctConceptCount (df : List ConceptRow) (table f : String) : Nat :=
  (dropDuplicatesByName [] (conceptSubset df table f)).length

/-- `AgentService._search_concepts`: hybrid concept resolution, instrumented
with the list of collaborator calls it issues. -/
def search_concepts (o : SearchOracle) (df : List ConceptRow)
    (lookupKeys : List String) (entity table f : String) :
    Option (List String) × List ConceptCall :=
  let subset := conceptSubset df table f
  if subset.isEmpty then (none, [])
  else
    let subsetUnique := dropDuplicatesByName [] subset
    let numUnique := subsetUnique.length
    if numUnique ≤ 50 then
      let candidates := subsetUnique.map (·.concept_name)
      (o.llm entity table f candidates, [ConceptCall.llmChoose entity candidates])
    else
      let valid := subsetUnique.filter (fun r => lookupKeys.contains r.concept_with_context)
      if valid.isEmpty then (none, [ConceptCall.embed entity])
      else
        let sorted := valid.mergeSort
          (fun a b => o.sim entity b.concept_with_context ≤ o.sim entity a.concept_with_context)
        (some ((sorted.take 5).map (·.concept_name)), [ConceptCall.embed entity])

theorem dropDuplicatesByName_nil_iff (seen : List String) (l : List ConceptRow) :
    dropDuplicatesByName seen l = [] ↔ l.filter (fun r => !(r.concept_name ∈ seen : Bool)) = [] := by
  induction l generalizing seen with
  | nil => simp [dropDuplicatesByName]
  | cons r rest ih =>
    by_cases h : r.concept_name ∈ seen
    · simp [dropDuplicatesByName, h, List.filter, ih]
    · simp [dropDuplicatesByName, h, List.filter]

theorem distinctConceptCount_zero_iff (df : List ConceptRow) (table f : String) :
    distinctConceptCount df table f = 0 ↔ (conceptSubset df table f).isEmpty = true := by
  unfold distinctConceptCount
  rw [List.length_eq_zero, dropDuplicatesByName_nil_iff]
  cases h : conceptSubset df table f with
  | nil => simp
  | cons r rest => simp [List.filter]

/-- C1 (amended): concept resolution is cardinality-gated at exactly 50,
for fields that have at least one recorded concept value.  With `1 ≤ n ≤ 50`
distinct values the LLM-choice path runs on the literal candidate strings and
no embedding call is issued; with `n > 50` an embedding nearest-neighbor
search (top 5 over the field's concept subset) runs and no LLM-choice call is
issued.  (With `n = 0` the source returns a miss without issuing either
call, which corrects the claim's unrestricted `≤ 50` clause.) -/
theorem search_concepts_cardinality_gate (o : SearchOracle) (df : List ConceptRow)
    (lookupKeys : List String) (entity table f : String) :
    (1 ≤ distinctConceptCount df table f → distinctConceptCount df table f ≤ 50 →
      search_concepts o df lookupKeys entity table f
        = (o.llm entity table f
            ((dropDuplicatesByName [] (conceptSubset df table f)).map (·.concept_name)),
           [ConceptCall.llmChoose entity
            ((dropDuplicatesByName [] (conceptSubset df table f)).map (·.concept_name))]))
  ∧ (50 < distinctConceptCount df table f →
      (search_concepts o df lookupKeys entity table f).2 = [ConceptCall.embed entity]
      ∧ ∀ names, (search_concepts o df lookupKeys entity table f).1 = some names →
          names.length ≤ 5
          ∧ ∀ x ∈ names, ∃ r ∈ dropDuplicatesByName [] (conceptSubset df table f),
              r.concept_name = x) := by
  have hcount : distinctConceptCount df table f
      = (dropDuplicatesByName [] (conceptSubset df table f)).length := rfl
  constructor
  · intro h1 h50
    have hne : (conceptSubset df table f).isEmpty = false := by
      cases hE : (conceptSubset df table f).isEmpty
      · rfl
      · exact absurd ((distinctConceptCount_zero_iff df table f).mpr hE) (by omega)
    have h50' : (dropDuplicatesByName [] (conceptSubset df table f)).length ≤ 50 := by
      rw [← hcount]; exact h50
    unfold search_concepts
    simp only [hne, Bool.false_eq_true, if_false, h50', if_true]
  · intro h51
    have hne : (conceptSubset df table f).isEmpty = false := by
      cases hE : (conceptSubset df table f).isEmpty
      · rfl
      · exact absurd ((distinctConceptCount_zero_iff df table f).mpr hE) (by omega)
    have h51' : ¬ (dropDuplicatesByName [] (conceptSubset df table f)).length ≤ 50 := by
      rw [← hcount]; omega
    unfold search_concepts
    simp only [hne, Bool.false_eq_true, if_false, h51', if_true]
    set valid := (dropDuplicatesByName [] (conceptSubset df table f)).filter
      (fun r => lookupKeys.contains r.concept_with_context) with hvalid
    cases hv : valid.isEmpty
    · simp only [hv, Bool.false_eq_true, if_false]
      refine ⟨trivial, ?_⟩
      intro names hnames
      simp only [Option.some.injEq] at hnames
      subst hnames
      constructor
      · calc (List.map (fun x => x.concept_name) (List.take 5 (valid.mergeSort _))).length
            = (List.take 5 (valid.mergeSort _)).length := by rw [List.length_map]
          _ ≤ 5 := by rw [List.length_take]; omega
      · intro x hx
        rcases List.mem_map.mp hx with ⟨r, hr, hrx⟩
        have hr1 : r ∈ valid.mergeSort (fun a b =>
            decide (o.sim entity b.concept_with_context ≤ o.sim entity a.concept_with_context)) :=
          List.take_subset 5 _ hr
        have hr2 : r ∈ valid := (List.mergeSort_perm valid _).mem_iff.mp hr1
        exact ⟨r, List.mem_of_mem_filter hr2, hrx⟩
    · simp only [hv, if_true]
      exact ⟨trivial, by intro names h; simp at h⟩

/-- Trivial oracle used for concrete evaluations. -/
def noopSearchOracle : SearchOracle := ⟨fun _ _ _ _ => none, fun _ _ => 0⟩

/-- `n` distinct concept rows for table `t`, field `f`. -/
def rowsN (n : Nat) : List ConceptRow :=
  (List.range n).map (fun i => ⟨"v" ++ toString i, "t", "f", "ctx" ++ toString i⟩)

/-- C1 counterexample: for a resolved field with zero distinct concept values
(a field absent from the concept table), the distinct count is at most 50 yet
resolution issues no LLM-choice call at all — it returns a miss with an empty
call list — so the claim's unrestricted "at most 50 takes the LLM path" is
false on the code. -/
theorem search_concepts_zero_distinct_no_llm_call :
    distinctConceptCount [] "patient" "age" = 0
  ∧ distinctConceptCount [] "patient" "age" ≤ 50
  ∧ search_concepts noopSearchOracle [] [] "65" "patient" "age" = (none, []) :=
  ⟨rfl, by decide, rfl⟩

theorem search_concepts_cardinality_gate_witness :
    (1 ≤ distinctConceptCount (rowsN 50) "t" "f"
     ∧ distinctConceptCount (rowsN 50) "t" "f" ≤ 50
     ∧ search_concepts noopSearchOracle (rowsN 50) [] "e" "t" "f"
         = (noopSearchOracle.llm "e" "t" "f"
             ((dropDuplicatesByName [] (conceptSubset (rowsN 50) "t" "f")).map (·.concept_name)),
            [ConceptCall.llmChoose "e"
             ((dropDuplicatesByName [] (conceptSubset (rowsN 50) "t" "f")).map (·.concept_name))]))
  ∧ (50 < distinctConceptCount (rowsN 51) "t" "f"
     ∧ (search_concepts noopSearchOracle (rowsN 51) [] "e" "t" "f").2
         = [ConceptCall.embed "e"]) :=
  ⟨⟨by decide, by decide,
    (search_concepts_cardinality_gate noopSearchOracle (rowsN 50) [] "e" "t" "f").1
      (by decide) (by decide)⟩,
   ⟨by decide,
    ((search_concepts_cardinality_gate noopSearchOracle (rowsN 51) [] "e" "t" "f").2
      (by decide)).1⟩⟩

/-! ### Schema catalog, key graph, primary-key resolution
(`AgentService._get_primary_key`, `AgentService._determine_root_table`)

`schema` maps a table name to its list of field names (only names are used by
the SQL-assembly code); `schema_keys` maps a table name to its declared
primary key and foreign keys (fk field → referenced table), in dict order. -/

structure KeyEntry where
  pk : Option String := none
  fks : List (String × String) := []
deriving DecidableEq

abbrev Schema := List (String × List String)

abbrev SchemaKeys := List (String × KeyEntry)

/-- The pattern fallback part of `_get_primary_key` (runs when no truthy
declared PK is found). -/
def pkFallback (schema : Schema) (table : String) : String :=
  match alistGet? schema table with
  | none => "id"
  | some fields =>
    match (pkPatterns table).find? (fun p => fields.contains p) with
    | some p => p
    | none =>
      match fields with
      | [] => "id"
      | fld :: _ => fld
where
  /-- The `common_pk_names` list of `_get_primary_key`, in source order. -/
  pkPatterns (table : String) : List String :=
    [table ++ "_id", "id", table ++ "id", table ++ "_ID", "ID"]

/-- `AgentService._get_primary_key`. -/
def get_primary_key (schema : Schema) (schema_keys : SchemaKeys) (table : String) : String :=
  match alistGet? schema_keys table with
  | some e =>
    match e.pk with
    | some pk => if pk = "" then pkFallback schema table else pk
    | none => pkFallback schema table
  | none => pkFallback schema table

/-- Truthiness of `schema_keys.get(table, {}).get('pk')`. -/
def hasTruthyPk (schema_keys : SchemaKeys) (table : String) : Bool :=
  match alistGet? schema_keys table with
  | some e =>
    match e.pk with
    | some pk => pk != ""
    | none => false
  | none => false

/-- `AgentService._determine_root_table`; `tables` is the referenced-table
set in the order Python happens to iterate it, and the result is `none`
exactly when the source raises (empty referenced set and empty catalog). -/
def determine_root_table (schema : Schema) (schema_keys : SchemaKeys)
    (tables : List String) : Option String :=
  match tables.find? (fun t => hasTruthyPk schema_keys t) with
  | some t => some t
  | none =>
    match tables with
    | t :: _ => some t
    | [] => (schema.map Prod.fst).head?

/-! Spec-side notions for the C6 precedence chain. -/

def declaredPk (schema_keys : SchemaKeys) (table : String) : Option String :=
  match alistGet? schema_keys table with
  | some e =>
    match e.pk with
    | some pk => if pk = "" then none else some pk
    | none => none
  | none => none

def firstPatternHit (schema : Schema) (table : String) : Option String :=
  match alistGet? schema table with
  | some fields => (pkFallback.pkPatterns table).find? (fun p => fields.contains p)
  | none => none

def firstDeclaredField (schema : Schema) (table : String) : Option String :=
  match alistGet? schema table with
  | some fields => fields.head?
  | none => none

/-- C6: primary-key resolution follows the precedence chain
declared PK → first matching pattern (`{table}_id`, `id`, `{table}id` and
uppercase variants) existing among the table's catalog fields → first
declared field → literal `"id"`, and (for a catalog whose field names are
nonempty) never returns the empty string. -/
theorem get_primary_key_spec (schema : Schema) (schema_keys : SchemaKeys) (table : String)
    (hfields : ∀ fs, alistGet? schema table = some fs → ∀ fld ∈ fs, fld ≠ "") :
    get_primary_key schema schema_keys table
      = ((declaredPk schema_keys table).or
          ((firstPatternHit schema table).or (firstDeclaredField schema table))).getD "id"
  ∧ get_primary_key schema schema_keys table ≠ "" := by
  have hpatne : ∀ q ∈ pkFallback.pkPatterns table, q ≠ "" := by
    intro q hq
    have hstep : ∀ s t : String, t.data ≠ [] → s ++ t ≠ "" := by
      intro s t htd h
      have hd := congrArg String.data h
      rw [String.data_append] at hd
      exact htd (List.append_eq_nil.mp hd).2
    unfold pkFallback.pkPatterns at hq
    simp only [List.mem_cons, List.not_mem_nil, or_false] at hq
    rcases hq with h | h | h | h | h
    · subst h; exact hstep table "_id" (by decide)
    · subst h; decide
    · subst h; exact hstep table "id" (by decide)
    · subst h; exact hstep table "_ID" (by decide)
    · subst h; decide
  have hfb : pkFallback schema table
      = ((firstPatternHit schema table).or (firstDeclaredField schema table)).getD "id" := by
    unfold pkFallback firstPatternHit firstDeclaredField
    cases hs : alistGet? schema table with
    | none => rfl
    | some fields =>
      cases hf : (pkFallback.pkPatterns table).find? (fun p => fields.contains p) with
      | some p => simp only [hf]; rfl
      | none =>
        cases fields with
        | nil => simp only [hf]; rfl
        | cons fld rest => simp only [hf]; rfl
  have hfbne : pkFallback schema table ≠ "" := by
    unfold pkFallback
    cases hs : alistGet? schema table with
    | none => simp
    | some fields =>
      cases hf : (pkFallback.pkPatterns table).find? (fun p => fields.contains p) with
      | some p =>
        simp only [hf]
        exact hpatne p (List.mem_of_find?_eq_some hf)
      | none =>
        cases fields with
        | nil => simp only [hf]; decide
        | cons fld rest =>
          simp only [hf]
          exact hfields _ hs fld (List.mem_cons_self _ _)
  constructor
  · unfold get_primary_key declaredPk
    cases hk : alistGet? schema_keys table with
    | none => simpa using hfb
    | some e =>
      simp only []
      cases hpk : e.pk with
      | none => simpa using hfb
      | some pk =>
        simp only []
        by_cases hpkne : pk = ""
        · simp only [hpkne, if_pos rfl, Option.none_or]
          simpa using hfb
        · simp [hpkne, Option.or]
  · unfold get_primary_key
    cases hk : alistGet? schema_keys table with
    | none => exact hfbne
    | some e =>
      simp only []
      cases hpk : e.pk with
      | none => exact hfbne
      | some pk =>
        simp only []
        by_cases hpkne : pk = ""
        · simpa [hpkne] using hfbne
        · simp [hpkne]

theorem get_primary_key_spec_witness :
    (∀ fs, alistGet? [("patient", ["name", "patient_id"])] "patient" = some fs →
        ∀ fld ∈ fs, fld ≠ "")
  ∧ get_primary_key [("patient", ["name", "patient_id"])] [] "patient"
      = ((declaredPk [] "patient").or
          ((firstPatternHit [("patient", ["name", "patient_id"])] "patient").or
            (firstDeclaredField [("patient", ["name", "patient_id"])] "patient"))).getD "id"
  ∧ get_primary_key [("patient", ["name", "patient_id"])] [] "patient" ≠ "" := by
  refine ⟨by decide, ?_, ?_⟩
  · exact (get_primary_key_spec [("patient", ["name", "patient_id"])] [] "patient" (by decide)).1
  · exact (get_primary_key_spec [("patient", ["name", "patient_id"])] [] "patient" (by decide)).2

/-- C5 counterexample: with two referenced tables that both declare a primary
key, the root returned by `_determine_root_table` depends on the iteration
order of the Python `set` of referenced tables; the same referenced-table set
enumerated in two different orders (as happens across interpreter runs with
hash randomisation) yields two different roots. -/
theorem determine_root_table_order_dependent :
    List.Perm ["admissions", "patients"] ["patients", "admissions"]
  ∧ determine_root_table []
      [("admissions", ⟨some "hadm_id", []⟩), ("patients", ⟨some "subject_id", []⟩)]
      ["admissions", "patients"] = some "admissions"
  ∧ determine_root_table []
      [("admissions", ⟨some "hadm_id", []⟩), ("patients", ⟨some "subject_id", []⟩)]
      ["patients", "admissions"] = some "patients" := by
  refine ⟨by decide, rfl, rfl⟩

/-- C5 (amended): for a fixed enumeration order of the referenced-table set,
root selection is a deterministic function that returns a referenced table,
preferring the first one with a declared primary key in the key graph; true
two-run determinism holds only when both runs enumerate the set in the same
order. -/
theorem determine_root_table_spec (schema : Schema) (schema_keys : SchemaKeys)
    (tables : List String) (hne : tables ≠ []) :
    ∃ r, determine_root_table schema schema_keys tables = some r
      ∧ r ∈ tables
      ∧ ((∃ t ∈ tables, hasTruthyPk schema_keys t = true) → hasTruthyPk schema_keys r = true) := by
  unfold determine_root_table
  cases hf : tables.find? (fun t => hasTruthyPk schema_keys t) with
  | some t =>
    exact ⟨t, rfl, List.mem_of_find?_eq_some hf, fun _ => List.find?_some hf⟩
  | none =>
    cases tables with
    | nil => exact absurd rfl hne
    | cons t rest =>
      refine ⟨t, rfl, List.mem_cons_self _ _, ?_⟩
      rintro ⟨u, hu, hupk⟩
      exact absurd hupk (by simpa using List.find?_eq_none.mp hf u hu)

theorem determine_root_table_spec_witness :
    (["patients"] : List String) ≠ []
  ∧ ∃ r, determine_root_table [] [("patients", ⟨some "subject_id", []⟩)] ["patients"] = some r
      ∧ r ∈ ["patients"]
      ∧ ((∃ t ∈ ["patients"], hasTruthyPk [("patients", ⟨some "subject_id", []⟩)] t = true) →
          hasTruthyPk [("patients", ⟨some "subject_id", []⟩)] r = true) :=
  ⟨by decide, determine_root_table_spec [] [("patients", ⟨some "subject_id", []⟩)]
    ["patients"] (by decide)⟩

/-! ### Join-path discovery (`AgentService._build_joins`)

Breadth-first traversal over the foreign-key graph.  A join clause
`JOIN newTable ON leftTable.leftField = rightTable.rightField` is kept in
structured form; rendering to the source's f-string happens in
`renderJoin`. -/

structure JoinClause where
  newTable : String
  leftTable : String
  leftField : String
  rightTable : String
  rightField : String
deriving DecidableEq

def renderJoin (j : JoinClause) : String :=
  "JOIN " ++ j.newTable ++ " ON " ++ j.leftTable ++ "." ++ j.leftField
    ++ " = " ++ j.rightTable ++ "." ++ j.rightField

structure BfsState where
  visited : List String
  queue : List String
  joins : List JoinClause
deriving DecidableEq

/-- `fks` of a table per `schema_keys.get(t, {}).get('fks', {})`. -/
def fksOf (schema_keys : SchemaKeys) (t : String) : List (String × String) :=
  match alistGet? schema_keys t with
  | some e => e.fks
  | none => []

/-- The forward pass of one BFS step: follow foreign keys out of `current`. -/
def forwardStep (schema : Schema) (schema_keys : SchemaKeys) (required : List String)
    (current : String) (st : BfsState) : BfsState :=
  (fksOf schema_keys current).foldl
    (fun st p =>
      if p.2 ∈ required ∧ p.2 ∉ st.visited then
        { visited := st.visited ++ [p.2], queue := st.queue ++ [p.2],
          joins := st.joins
            ++ [⟨p.2, current, p.1, p.2, get_primary_key schema schema_keys p.2⟩] }
      else st)
    st

/-- The reverse pass of one BFS step: find required tables whose foreign keys
point at `current`. -/
def reverseStep (schema : Schema) (schema_keys : SchemaKeys) (required : List String)
    (current : String) (st : BfsState) : BfsState :=
  required.foldl
    (fun st other =>
      if other ∈ st.visited then st
      else
        match (fksOf schema_keys other).find? (fun p => p.2 == current) with
        | some kv =>
          { visited := st.visited ++ [other], queue := st.queue ++ [other],
            joins := st.joins
              ++ [⟨other, current, get_primary_key schema schema_keys current, other, kv.1⟩] }
        | none => st)
    st

/-- The `while queue and len(visited) < len(required_tables)` loop. -/
def bfsLoop (schema : Schema) (schema_keys : SchemaKeys) (required : List String) :
    Nat → BfsState → BfsState
  | 0, st => st
  | fuel + 1, st =>
    match st.queue with
    | [] => st
    | current :: rest =>
      if st.visited.length < required.length then
        bfsLoop schema schema_keys required fuel
          (reverseStep schema schema_keys required current
            (forwardStep schema schema_keys required current { st with queue := rest }))
      else st

/-- `AgentService._build_joins` (structured form).  `required` is the
referenced-table set in iteration order.  The fuel bound exceeds the total
number of queue pops (each pop is of a distinctly-visited table, and at most
`required.length + 1` tables are ever enqueued). -/
def build_joins (schema : Schema) (schema_keys : SchemaKeys) (root : String)
    (required : List String) : List JoinClause :=
  (bfsLoop schema schema_keys required (required.length + 1)
    ⟨[root], [root], []⟩).joins

/-- The BFS invariant behind C7. -/
structure BfsInv (root : String) (required : List String) (st : BfsState) : Prop where
  vnodup : st.visited.Nodup
  vscope : ∀ t ∈ st.visited, t = root ∨ t ∈ required
  qsub : ∀ t ∈ st.queue, t ∈ st.visited
  jnew_mem : ∀ j ∈ st.joins, j.newTable ∈ st.visited
  jnew_req : ∀ j ∈ st.joins, j.newTable ∈ required
  jleft : ∀ j ∈ st.joins, j.leftTable ∈ st.visited
  jright : ∀ j ∈ st.joins, j.rightTable = j.newTable
  jnodup : (st.joins.map JoinClause.newTable).Nodup

theorem BfsInv.emit (root : String) (required : List String) (st : BfsState)
    (inv : BfsInv root required st) (current newT lf rf : String)
    (hcur : current ∈ st.visited) (hreq : newT ∈ required) (hnew : newT ∉ st.visited) :
    BfsInv root required
      { visited := st.visited ++ [newT], queue := st.queue ++ [newT],
        joins := st.joins ++ [⟨newT, current, lf, newT, rf⟩] } := by
  constructor
  · simpa [List.nodup_append] using ⟨inv.vnodup, hnew⟩
  · intro t ht
    rcases List.mem_append.mp ht with h | h
    · exact inv.vscope t h
    · rw [List.mem_singleton] at h
      exact Or.inr (h ▸ hreq)
  · intro t ht
    rcases List.mem_append.mp ht with h | h
    · exact List.mem_append_left _ (inv.qsub t h)
    · exact List.mem_append_right _ h
  · intro j hj
    rcases List.mem_append.mp hj with h | h
    · exact List.mem_append_left _ (inv.jnew_mem j h)
    · rw [List.mem_singleton] at h
      subst h
      exact List.mem_append_right _ (List.mem_singleton.mpr rfl)
  · intro j hj
    rcases List.mem_append.mp hj with h | h
    · exact inv.jnew_req j h
    · rw [List.mem_singleton] at h
      subst h
      exact hreq
  · intro j hj
    rcases List.mem_append.mp hj with h | h
    · exact List.mem_append_left _ (inv.jleft j h)
    · rw [List.mem_singleton] at h
      subst h
      exact List.mem_append_left _ hcur
  · intro j hj
    rcases List.mem_append.mp hj with h | h
    · exact inv.jright j h
    · rw [List.mem_singleton] at h
      subst h
      rfl
  · rw [List.map_append, List.nodup_append]
    refine ⟨inv.jnodup, by simp, ?_⟩
    intro x hx
    rcases List.mem_map.mp hx with ⟨j, hj, hjx⟩
    simp only [List.map_cons, List.map_nil, List.mem_singleton]
    intro hx2
    apply hnew
    rw [← hx2, ← hjx]
    exact inv.jnew_mem j hj

/-- Growth: the visited set only grows through the fold steps. -/
theorem forwardStep_visited_mono (schema : Schema) (schema_keys : SchemaKeys)
    (required : List String) (current : String) (st : BfsState) :
    ∀ t ∈ st.visited, t ∈ (forwardStep schema schema_keys required current st).visited := by
  unfold forwardStep
  generalize fksOf schema_keys current = l
  induction l generalizing st with
  | nil => intro t ht; exact ht
  | cons p rest ih =>
    intro t ht
    simp only [List.foldl_cons]
    by_cases hcond : p.2 ∈ required ∧ p.2 ∉ st.visited
    · rw [if_pos hcond]
      exact ih _ t (List.mem_append_left _ ht)
    · rw [if_neg hcond]
      exact ih _ t ht

theorem forwardStep_inv (root : String) (schema : Schema) (schema_keys : SchemaKeys)
    (required : List String) (current : String) (st : BfsState)
    (inv : BfsInv root required st) (hcur : current ∈ st.visited) :
    BfsInv root required (forwardStep schema schema_keys required current st) := by
  unfold forwardStep
  generalize fksOf schema_keys current = l
  induction l generalizing st with
  | nil => exact inv
  | cons p rest ih =>
    simp only [List.foldl_cons]
    by_cases hcond : p.2 ∈ required ∧ p.2 ∉ st.visited
    · rw [if_pos hcond]
      exact ih _ (BfsInv.emit root required st inv current p.2 p.1 _ hcur hcond.1 hcond.2)
        (List.mem_append_left _ hcur)
    · rw [if_neg hcond]
      exact ih _ inv hcur

theorem reverseStep_inv (root : String) (schema : Schema) (schema_keys : SchemaKeys)
    (required0 required : List String) (current : String) (st : BfsState)
    (inv : BfsInv root required0 st) (hcur : current ∈ st.visited)
    (hsub : ∀ t ∈ required, t ∈ required0) :
    BfsInv root required0
      (required.foldl
        (fun st other =>
          if other ∈ st.visited then st
          else
            match (fksOf schema_keys other).find? (fun p => p.2 == current) with
            | some kv =>
              { visited := st.visited ++ [other], queue := st.queue ++ [other],
                joins := st.joins
                  ++ [⟨other, current, get_primary_key schema schema_keys current, other, kv.1⟩] }
            | none => st)
        st) := by
  induction required generalizing st with
  | nil => exact inv
  | cons other rest ih =>
    simp only [List.foldl_cons]
    by_cases hvis : other ∈ st.visited
    · rw [if_pos hvis]
      exact ih st inv hcur (fun t ht => hsub t (List.mem_cons_of_mem _ ht))
    · rw [if_neg hvis]
      cases hfind : (fksOf schema_keys other).find? (fun p => p.2 == current) with
      | some kv =>
        simp only [hfind]
        exact ih _ (BfsInv.emit root required0 st inv current other
            (get_primary_key schema schema_keys current) kv.1 hcur
            (hsub other (List.mem_cons_self _ _)) hvis)
          (List.mem_append_left _ hcur)
          (fun t ht => hsub t (List.mem_cons_of_mem _ ht))
      | none =>
        simp only [hfind]
        exact ih st inv hcur (fun t ht => hsub t (List.mem_cons_of_mem _ ht))

theorem bfsLoop_inv (root : String) (schema : Schema) (schema_keys : SchemaKeys)
    (required : List String) (fuel : Nat) (st : BfsState)
    (inv : BfsInv root required st) :
    BfsInv root required (bfsLoop schema schema_keys required fuel st) := by
  induction fuel generalizing st with
  | zero => exact inv
  | succ fuel ih =>
    unfold bfsLoop
    cases hq : st.queue with
    | nil => exact inv
    | cons current rest =>
      simp only []
      by_cases hlen : st.visited.length < required.length
      · rw [if_pos hlen]
        apply ih
        have hcur : current ∈ st.visited := inv.qsub current (by rw [hq]; exact List.mem_cons_self _ _)
        have inv1 : BfsInv root required { st with queue := rest } :=
          { vnodup := inv.vnodup, vscope := inv.vscope,
            qsub := fun t ht => inv.qsub t (by rw [hq]; exact List.mem_cons_of_mem _ ht),
            jnew_mem := inv.jnew_mem, jnew_req := inv.jnew_req,
            jleft := inv.jleft, jright := inv.jright, jnodup := inv.jnodup }
        have inv2 := forwardStep_inv root schema schema_keys required current
          { st with queue := rest } inv1 hcur
        have hcur2 : current ∈ (forwardStep schema schema_keys required current
            { st with queue := rest }).visited :=
          forwardStep_visited_mono schema schema_keys required current _ current hcur
        exact reverseStep_inv root schema schema_keys required required current _
          inv2 hcur2 (fun t ht => ht)
      · rw [if_neg hlen]
        exact inv

/-- C7: join-path BFS never emits a table twice, and — provided the root is
itself a required table (or no table is required at all, in which case the
loop body never runs) — every table named in an emitted JOIN clause belongs
to the required set.  Unreachable tables simply never appear: the traversal
is a total function that omits them instead of failing. -/
theorem build_joins_spec (schema : Schema) (schema_keys : SchemaKeys)
    (root : String) (required : List String)
    (hroot : root ∈ required ∨ required = []) :
    ((build_joins schema schema_keys root required).map JoinClause.newTable).Nodup
  ∧ ∀ j ∈ build_joins schema schema_keys root required,
      j.newTable ∈ required ∧ j.leftTable ∈ required ∧ j.rightTable ∈ required := by
  have inv0 : BfsInv root required ⟨[root], [root], []⟩ :=
    { vnodup := List.nodup_singleton root,
      vscope := fun t ht => Or.inl (List.mem_singleton.mp ht),
      qsub := fun t ht => ht,
      jnew_mem := by intro j hj; simp at hj,
      jnew_req := by intro j hj; simp at hj,
      jleft := by intro j hj; simp at hj,
      jright := by intro j hj; simp at hj,
      jnodup := List.nodup_nil }
  have inv := bfsLoop_inv root schema schema_keys required
    (required.length + 1) _ inv0
  rcases hroot with hroot | hempty
  · refine ⟨inv.jnodup, ?_⟩
    intro j hj
    have hleft := inv.jleft j hj
    have hleftreq : j.leftTable ∈ required := by
      rcases inv.vscope _ hleft with h | h
      · exact h ▸ hroot
      · exact h
    exact ⟨inv.jnew_req j hj, hleftreq, (inv.jright j hj) ▸ inv.jnew_req j hj⟩
  · subst hempty
    refine ⟨inv.jnodup, ?_⟩
    intro j hj
    exact ⟨inv.jnew_req j hj, absurd (inv.jnew_req j hj) (List.not_mem_nil _), by
      exact absurd (inv.jnew_req j hj) (List.not_mem_nil _)⟩

theorem build_joins_spec_witness :
    (("patients" ∈ (["patients", "admissions"] : List String))
      ∨ (["patients", "admissions"] : List String) = [])
  ∧ ((build_joins [] [("admissions", ⟨some "hadm_id", [("subject_id", "patients")]⟩)]
        "patients" ["patients", "admissions"]).map JoinClause.newTable).Nodup
  ∧ ∀ j ∈ build_joins [] [("admissions", ⟨some "hadm_id", [("subject_id", "patients")]⟩)]
        "patients" ["patients", "admissions"],
      j.newTable ∈ ["patients", "admissions"]
      ∧ j.leftTable ∈ ["patients", "admissions"]
      ∧ j.rightTable ∈ ["patients", "admissions"] := by
  refine ⟨Or.inl (by decide), ?_, ?_⟩
  · exact (build_joins_spec [] [("admissions", ⟨some "hadm_id", [("subject_id", "patients")]⟩)]
      "patients" ["patients", "admissions"] (Or.inl (by decide))).1
  · exact (build_joins_spec [] [("admissions", ⟨some "hadm_id", [("subject_id", "patients")]⟩)]
      "patients" ["patients", "admissions"] (Or.inl (by decide))).2

/-! ### Conversation state machine (`ConversationalAgent`)

`Criterion` carries the fields the conversational handlers read: id, type
(include/exclude), text, the chip label, and the SQL expression attached at
rewrite time.  LLM-backed re-extractions (`process_stage_0` with the various
feedback prompts) and the stage-1 schema mapping are oracle parameters. -/

def apos : String := (Char.ofNat 39).toString

structure Criterion where
  id : String
  type : String
  text : String
  chipLabel : String
  sql_expression : Option String := none
deriving DecidableEq

structure QueryResults where
  total_count : Nat
deriving DecidableEq

/-- The dict snapshotted by `_handle_edit` into `state.last_state` (note:
`last_query_results` is not part of the snapshot in the source). -/
structure Snapshot where
  current_stage : Nat
  criteria : List Criterion
  entities_extracted : Bool
  schema_mapped : Bool
  concepts_mapped : Bool
  criteria_rewritten : Bool
  criteria_validated : Bool
  sql_query : Option String
deriving DecidableEq

/-- `ConversationState` of `conversational_agent.py`. -/
structure ConversationState where
  current_stage : Nat := 0
  criteria : List Criterion := []
  entities_extracted : Bool := false
  schema_mapped : Bool := false
  concepts_mapped : Bool := false
  criteria_rewritten : Bool := false
  criteria_validated : Bool := false
  sql_query : Option String := none
  last_query_results : Option QueryResults := none
  last_state : Option Snapshot := none
deriving DecidableEq

/-- Discriminated summary of the response dict each handler returns. -/
inductive AgentReply where
  | criteriaExtracted (criteria : List Criterion)
  | criteriaUpdated (criteria : List Criterion)
  | schemaMapped (criteria : List Criterion)
  | conceptsMapped (criteria : List Criterion)
  | sqlGenerated (sql : Option String)
  | noSqlToExecute
  | regenerationNeeded (errorMsg : String)
  | executionFailed (errorMsg : String)
  | executed (results : QueryResults)
  | atFinalStage
  | reverted (stage : Nat) (criteria : List Criterion)
  | nothingToUndo
deriving DecidableEq

/-- Oracles standing for the LLM calls issued by `process_stage_0` (fresh,
add-constrained and replace-constrained prompts), the chip-label heuristic
and the stage-1 schema mapping. -/
structure EditOracle where
  extract : String → List (String × String)
  extractAdd : List Criterion → String → List (String × String)
  extractReplace : List Criterion → String → List (String × String)
  chip : String → String
  mapSchema : List Criterion → List Criterion

/-- `process_stage_0` output conversion: ids `c0, c1, ...`, chip labels,
no SQL expression yet. -/
def mkCriteria (chip : String → String) (raw : List (String × String)) : List Criterion :=
  raw.enum.map (fun p =>
    { id := "c" ++ toString p.1, type := p.2.1, text := p.2.2,
      chipLabel := chip p.2.2, sql_expression := none })

/-- Id re-assignment `crit['id'] = f"c{idx}"`. -/
def assignIds (l : List Criterion) : List Criterion :=
  l.enum.map (fun p => { p.2 with id := "c" ++ toString p.1 })

/-- Id assignment for appended criteria, `c{next_id + idx}`. -/
def withIdsFrom (n : Nat) (l : List Criterion) : List Criterion :=
  l.enum.map (fun p => { p.2 with id := "c" ++ toString (n + p.1) })

def delete_keywords : List String := ["remove", "delete", "drop", "take out", "get rid of"]

def add_keywords : List String := ["add", "also", "and"]

def replace_keywords : List String :=
  ["instead of", "change", "replace", "no i want", "don" ++ apos ++ "t want",
   "not", "include", "exclude"]

def anyKeyword (msg : String) (ks : List String) : Bool :=
  ks.any (fun k => isSubstr k msg)

/-- First keyword of `ks` found in `msg` (the `for ... break` loop). -/
def firstKeyword (msg : String) (ks : List String) : String :=
  ((ks.find? (fun k => isSubstr k msg)).getD "")

/-- `hay.split(needle, 1)[1]`: the suffix after the first occurrence. -/
def afterFirstAux (needle : List Char) : List Char → List Char
  | [] => []
  | c :: rest =>
    if needle.isPrefixOf (c :: rest) then (c :: rest).drop needle.length
    else afterFirstAux needle rest

def afterFirst (needle hay : String) : String := ⟨afterFirstAux needle.data hay.data⟩

/-- The deletion filter: keep a criterion unless `delete_text` occurs in its
lowered text or its lowered chip label. -/
def deleteMatching (deleteText : String) (l : List Criterion) : List Criterion :=
  l.filter (fun c =>
    !(isSubstr deleteText (lowerStr c.text)) && !(isSubstr deleteText (lowerStr c.chipLabel)))

/-- `crit.get('text', '').lower().strip()`. -/
def normText (c : Criterion) : String := stripStr (lowerStr c.text)

/-- The replace-edit de-duplication pass of `_handle_edit` (stage ≥ 2):
keeps the first criterion per normalised text, except that a later `include`
replaces an earlier criterion with the same text (appended at the end). -/
def dedupCriteriaAux (seen : List String) (acc : List Criterion) :
    List Criterion → List Criterion
  | [] => acc
  | c :: rest =>
    if normText c ∈ seen then
      if c.type = "include" then
        dedupCriteriaAux seen ((acc.filter (fun x => !(normText x = normText c : Bool))) ++ [c]) rest
      else dedupCriteriaAux seen acc rest
    else dedupCriteriaAux (normText c :: seen) (acc ++ [c]) rest

def dedupCriteria (l : List Criterion) : List Criterion := dedupCriteriaAux [] [] l

/-- Python's `modifications or message`. -/
def orMessage (modifications : Option String) (message : String) : String :=
  match modifications with
  | some m => if m = "" then message else m
  | none => message

/-- The branch-dependent criteria/stage effect and reply of `_handle_edit`
(after the undo snapshot has been stored). -/
def editCore (o : EditOracle) (message : String) (modifications : Option String)
    (s : ConversationState) : List Criterion × Nat × AgentReply :=
  let msgLower := stripStr (lowerStr message)
  let mods := orMessage modifications message
  if s.current_stage = 0 then
    if anyKeyword msgLower delete_keywords then
      let delText := stripStr (afterFirst (firstKeyword msgLower delete_keywords) msgLower)
      let updated := deleteMatching delText s.criteria
      (updated, 0, AgentReply.criteriaUpdated updated)
    else if anyKeyword msgLower add_keywords ∧ s.criteria ≠ [] then
      let newCrits := withIdsFrom s.criteria.length (mkCriteria o.chip (o.extractAdd s.criteria mods))
      (s.criteria ++ newCrits, 0, AgentReply.criteriaUpdated (s.criteria ++ newCrits))
    else if anyKeyword msgLower replace_keywords ∧ s.criteria ≠ [] then
      let newCrits := assignIds (mkCriteria o.chip (o.extractReplace s.criteria mods))
      (newCrits, 0, AgentReply.criteriaUpdated newCrits)
    else
      let newCrits := mkCriteria o.chip (o.extract mods)
      (newCrits, 0, AgentReply.criteriaUpdated newCrits)
  else if s.current_stage = 1 then
    let mapped := o.mapSchema (mkCriteria o.chip (o.extract mods))
    (mapped, 1, AgentReply.criteriaUpdated mapped)
  else
    if anyKeyword msgLower delete_keywords then
      let delText := stripStr (afterFirst (firstKeyword msgLower delete_keywords) msgLower)
      let updated := deleteMatching delText s.criteria
      (updated, 0, AgentReply.criteriaUpdated updated)
    else if anyKeyword msgLower add_keywords then
      let newCrits := withIdsFrom s.criteria.length (mkCriteria o.chip (o.extractAdd s.criteria mods))
      (s.criteria ++ newCrits, 0, AgentReply.criteriaUpdated (s.criteria ++ newCrits))
    else if anyKeyword msgLower replace_keywords then
      let deduped := assignIds (dedupCriteria (mkCriteria o.chip (o.extractReplace s.criteria mods)))
      (deduped, 0, AgentReply.criteriaUpdated deduped)
    else
      let deduped := dedupCriteria (mkCriteria o.chip (o.extract mods))
      (deduped, 0, AgentReply.criteriaUpdated deduped)

/-- The snapshot `_handle_edit` stores before mutating. -/
def mkSnapshot (s : ConversationState) : Snapshot :=
  { current_stage := s.current_stage, criteria := s.criteria,
    entities_extracted := s.entities_extracted, schema_mapped := s.schema_mapped,
    concepts_mapped := s.concepts_mapped, criteria_rewritten := s.criteria_rewritten,
    criteria_validated := s.criteria_validated, sql_query := s.sql_query }

/-- `ConversationalAgent._handle_edit`. -/
def handle_edit (o : EditOracle) (message : String) (modifications : Option String)
    (s : ConversationState) : ConversationState × AgentReply :=
  let s1 := { s with last_state := some (mkSnapshot s) }
  let core := editCore o message modifications s1
  ({ s1 with criteria := core.1, current_stage := core.2.1 }, core.2.2)

/-- `ConversationalAgent._handle_undo`. -/
def handle_undo (s : ConversationState) : ConversationState × AgentReply :=
  match s.last_state with
  | none => (s, AgentReply.nothingToUndo)
  | some snap =>
    ({ s with
        current_stage := snap.current_stage
        criteria := snap.criteria
        entities_extracted := snap.entities_extracted
        schema_mapped := snap.schema_mapped
        concepts_mapped := snap.concepts_mapped
        criteria_rewritten := snap.criteria_rewritten
        criteria_validated := snap.criteria_validated
        sql_query := snap.sql_query
        last_state := none },
     AgentReply.reverted snap.current_stage snap.criteria)

/-- `ConversationalAgent._handle_new_query`: resets the working fields and
re-runs extraction; `last_state` is untouched. -/
def handle_new_query (o : EditOracle) (message : String) (s : ConversationState) :
    ConversationState × AgentReply :=
  let cs := mkCriteria o.chip (o.extract message)
  ({ s with
      criteria := cs
      entities_extracted := false
      schema_mapped := false
      concepts_mapped := false
      criteria_rewritten := false
      criteria_validated := false
      sql_query := none
      last_query_results := none
      current_stage := 0 },
   AgentReply.criteriaExtracted cs)

/-- C3: an edit snapshots the pre-edit state into the single-slot undo
buffer, and one undo restores every tracked field — stage, criteria, stage
flags, generated SQL, and the last execution result (which edits never
touch) — to its pre-edit value while clearing the snapshot; a second undo
with no intervening edit leaves the state unchanged and reports that there
is nothing to undo. -/
theorem edit_undo_restores (o : EditOracle) (message : String)
    (modifications : Option String) (s : ConversationState) :
    (handle_undo (handle_edit o message modifications s).1).1 = { s with last_state := none }
  ∧ handle_undo (handle_undo (handle_edit o message modifications s).1).1
      = ({ s with last_state := none }, AgentReply.nothingToUndo) :=
  ⟨rfl, rfl⟩

def scenarioOracle : EditOracle :=
  { extract := fun _ => [("include", "are male")]
    extractAdd := fun _ _ => []
    extractReplace := fun _ _ => []
    chip := fun t => t
    mapSchema := fun l => l }

def scenarioCriterion : Criterion :=
  { id := "c0", type := "include", text := "are female", chipLabel := "are female" }

def scenarioState : ConversationState := { criteria := [scenarioCriterion] }

/-- C10: `start_new` resets criteria, stage flags, generated SQL, the last
execution result and the stage counter but leaves the single-slot undo
snapshot unchanged; consequently an undo issued right after `start_new`
(here: after an edit of the previous query) restores the pre-edit criteria,
stage and SQL of the previous query instead of reporting nothing to undo. -/
theorem new_query_preserves_undo_snapshot (o : EditOracle) (message : String)
    (s : ConversationState) :
    ((handle_new_query o message s).1.last_state = s.last_state
     ∧ (handle_new_query o message s).1.criteria = mkCriteria o.chip (o.extract message)
     ∧ (handle_new_query o message s).1.current_stage = 0
     ∧ (handle_new_query o message s).1.sql_query = none
     ∧ (handle_new_query o message s).1.last_query_results = none
     ∧ (handle_new_query o message s).1.entities_extracted = false
     ∧ (handle_new_query o message s).1.schema_mapped = false
     ∧ (handle_new_query o message s).1.concepts_mapped = false
     ∧ (handle_new_query o message s).1.criteria_rewritten = false
     ∧ (handle_new_query o message s).1.criteria_validated = false)
  ∧ ((handle_undo (handle_new_query scenarioOracle "find male patients"
        (handle_edit scenarioOracle "remove female" none scenarioState).1).1).2
       = AgentReply.reverted 0 [scenarioCriterion]
     ∧ (handle_undo (handle_new_query scenarioOracle "find male patients"
          (handle_edit scenarioOracle "remove female" none scenarioState).1).1).1.criteria
        = [scenarioCriterion]
     ∧ (handle_undo (handle_new_query scenarioOracle "find male patients"
          (handle_edit scenarioOracle "remove female" none scenarioState).1).1).2
        ≠ AgentReply.nothingToUndo) :=
  ⟨⟨rfl, rfl, rfl, rfl, rfl, rfl, rfl, rfl, rfl, rfl⟩, rfl, rfl, by decide⟩

/-! ### Replace-edit de-duplication (C4) -/

theorem dedupCriteriaAux_spec (R : List Criterion) :
    ∀ (S : List String) (A P : List Criterion),
      (∀ t, t ∈ S ↔ ∃ y ∈ P, normText y = t) →
      ((A.map normText).Nodup) →
      (∀ x ∈ A, normText x ∈ S) →
      (∀ x ∈ A, x.type ≠ "include" → ∀ y ∈ P, normText y = normText x → y.type ≠ "include") →
      ((dedupCriteriaAux S A R).map normText).Nodup
      ∧ (∀ x ∈ dedupCriteriaAux S A R, x.type ≠ "include" →
          ∀ y ∈ P ++ R, normText y = normText x → y.type ≠ "include") := by
  induction R with
  | nil =>
    intro S A P hS I1 I2 I3
    exact ⟨I1, by simpa [dedupCriteriaAux] using I3⟩
  | cons c rest ih =>
    intro S A P hS I1 I2 I3
    by_cases hseen : normText c ∈ S
    · by_cases hinc : c.type = "include"
      · -- collision with an earlier text and the newcomer is an include:
        -- the earlier entry is dropped and the include appended.
        have hstep : dedupCriteriaAux S A (c :: rest)
            = dedupCriteriaAux S
                ((A.filter (fun x => !(normText x = normText c : Bool))) ++ [c]) rest := by
          simp [dedupCriteriaAux, hseen, hinc]
        have hS' : ∀ t, t ∈ S ↔ ∃ y ∈ P ++ [c], normText y = t := by
          intro t
          constructor
          · intro ht
            rcases (hS t).mp ht with ⟨y, hy, hn⟩
            exact ⟨y, List.mem_append_left _ hy, hn⟩
          · rintro ⟨y, hy, hn⟩
            rcases List.mem_append.mp hy with h | h
            · exact (hS t).mpr ⟨y, h, hn⟩
            · rw [List.mem_singleton] at h
              subst h
              exact hn ▸ hseen
        have I1' : (((A.filter (fun x => !(normText x = normText c : Bool))) ++ [c]).map
            normText).Nodup := by
          rw [List.map_append, List.nodup_append]
          refine ⟨List.Nodup.sublist (List.Sublist.map normText (List.filter_sublist A)) I1, by simp, ?_⟩
          intro t ht
          rcases List.mem_map.mp ht with ⟨a, ha, hat⟩
          have hcond := List.of_mem_filter ha
          simp only [Bool.not_eq_eq_eq_not, Bool.not_true, decide_eq_false_iff_not] at hcond
          simp only [List.map_cons, List.map_nil, List.mem_singleton]
          intro ht2
          exact hcond (by rw [hat, ht2])
        have I2' : ∀ x ∈ (A.filter (fun x => !(normText x = normText c : Bool))) ++ [c],
            normText x ∈ S := by
          intro x hx
          rcases List.mem_append.mp hx with h | h
          · exact I2 x (List.mem_of_mem_filter h)
          · rw [List.mem_singleton] at h
            subst h
            exact hseen
        have I3' : ∀ x ∈ (A.filter (fun x => !(normText x = normText c : Bool))) ++ [c],
            x.type ≠ "include" → ∀ y ∈ P ++ [c], normText y = normText x →
              y.type ≠ "include" := by
          intro x hx hxt y hy hn
          rcases List.mem_append.mp hx with h | h
          · rcases List.mem_append.mp hy with hyP | hyc
            · exact I3 x (List.mem_of_mem_filter h) hxt y hyP hn
            · rw [List.mem_singleton] at hyc
              subst hyc
              have hcond := List.of_mem_filter h
              simp only [Bool.not_eq_eq_eq_not, Bool.not_true, decide_eq_false_iff_not] at hcond
              exact absurd hn.symm hcond
          · rw [List.mem_singleton] at h
            subst h
            exact absurd hinc hxt
        have hres := ih S _ (P ++ [c]) hS' I1' I2' I3'
        rw [hstep]
        refine ⟨hres.1, ?_⟩
        intro x hx hxt y hy hn
        exact hres.2 x hx hxt y (by simpa using hy) hn
      · -- collision, newcomer is not an include: newcomer skipped.
        have hstep : dedupCriteriaAux S A (c :: rest) = dedupCriteriaAux S A rest := by
          simp [dedupCriteriaAux, hseen, hinc]
        have hS' : ∀ t, t ∈ S ↔ ∃ y ∈ P ++ [c], normText y = t := by
          intro t
          constructor
          · intro ht
            rcases (hS t).mp ht with ⟨y, hy, hn⟩
            exact ⟨y, List.mem_append_left _ hy, hn⟩
          · rintro ⟨y, hy, hn⟩
            rcases List.mem_append.mp hy with h | h
            · exact (hS t).mpr ⟨y, h, hn⟩
            · rw [List.mem_singleton] at h
              subst h
              exact hn ▸ hseen
        have I3' : ∀ x ∈ A, x.type ≠ "include" → ∀ y ∈ P ++ [c],
            normText y = normText x → y.type ≠ "include" := by
          intro x hx hxt y hy hn
          rcases List.mem_append.mp hy with h | h
          · exact I3 x hx hxt y h hn
          · rw [List.mem_singleton] at h
            subst h
            exact hinc
        have hres := ih S A (P ++ [c]) hS' I1 I2 I3'
        rw [hstep]
        refine ⟨hres.1, ?_⟩
        intro x hx hxt y hy hn
        exact hres.2 x hx hxt y (by simpa using hy) hn
    · -- fresh text: appended and recorded as seen.
      have hstep : dedupCriteriaAux S A (c :: rest)
          = dedupCriteriaAux (normText c :: S) (A ++ [c]) rest := by
        simp [dedupCriteriaAux, hseen]
      have hS' : ∀ t, t ∈ normText c :: S ↔ ∃ y ∈ P ++ [c], normText y = t := by
        intro t
        constructor
        · intro ht
          rcases List.mem_cons.mp ht with h | h
          · exact ⟨c, List.mem_append_right _ (List.mem_singleton.mpr rfl), h.symm⟩
          · rcases (hS t).mp h with ⟨y, hy, hn⟩
            exact ⟨y, List.mem_append_left _ hy, hn⟩
        · rintro ⟨y, hy, hn⟩
          rcases List.mem_append.mp hy with h | h
          · exact List.mem_cons_of_mem _ ((hS t).mpr ⟨y, h, hn⟩)
          · rw [List.mem_singleton] at h
            subst h
            exact hn ▸ List.mem_cons_self _ _
      have I1' : ((A ++ [c]).map normText).Nodup := by
        rw [List.map_append, List.nodup_append]
        refine ⟨I1, by simp, ?_⟩
        intro t ht
        rcases List.mem_map.mp ht with ⟨a, ha, hat⟩
        simp only [List.map_cons, List.map_nil, List.mem_singleton]
        intro ht2
        exact hseen (by rw [← ht2, ← hat]; exact I2 a ha)
      have I2' : ∀ x ∈ A ++ [c], normText x ∈ normText c :: S := by
        intro x hx
        rcases List.mem_append.mp hx with h | h
        · exact List.mem_cons_of_mem _ (I2 x h)
        · rw [List.mem_singleton] at h
          subst h
          exact List.mem_cons_self _ _
      have I3' : ∀ x ∈ A ++ [c], x.type ≠ "include" → ∀ y ∈ P ++ [c],
          normText y = normText x → y.type ≠ "include" := by
        intro x hx hxt y hy hn
        rcases List.mem_append.mp hx with h | h
        · rcases List.mem_append.mp hy with hyP | hyc
          · exact I3 x h hxt y hyP hn
          · rw [List.mem_singleton] at hyc
            subst hyc
            exact absurd (hn ▸ I2 x h) hseen
        · rw [List.mem_singleton] at h
          subst h
          rcases List.mem_append.mp hy with hyP | hyc
          · exact absurd ((hS (normText x)).mpr ⟨y, hyP, hn⟩) hseen
          · rw [List.mem_singleton] at hyc
            subst hyc
            exact hxt
      have hres := ih (normText c :: S) (A ++ [c]) (P ++ [c]) hS' I1' I2' I3'
      rw [hstep]
      refine ⟨hres.1, ?_⟩
      intro x hx hxt y hy hn
      exact hres.2 x hx hxt y (by simpa using hy) hn

/-- Summary properties of the de-duplication pass. -/
theorem dedupCriteria_spec (l : List Criterion) :
    ((dedupCriteria l).map normText).Nodup
  ∧ ∀ x ∈ dedupCriteria l, x.type ≠ "include" →
      ∀ y ∈ l, normText y = normText x → y.type ≠ "include" := by
  have h := dedupCriteriaAux_spec l [] [] []
    (by simp) (by simp) (by simp) (by simp)
  exact ⟨h.1, fun x hx hxt y hy hn => h.2 x hx hxt y (by simpa using hy) hn⟩

def exampleReplaceOracle : EditOracle :=
  { extract := fun _ => []
    extractAdd := fun _ _ => []
    extractReplace := fun _ _ => [("include", "are female"), ("include", "are caucasian")]
    chip := fun t => t
    mapSchema := fun l => l }

def dupReplaceOracle : EditOracle :=
  { extract := fun _ => []
    extractAdd := fun _ _ => []
    extractReplace := fun _ _ => [("include", "are asian"), ("exclude", "are asian")]
    chip := fun t => t
    mapSchema := fun l => l }

def exampleEditState : ConversationState :=
  { criteria := [{ id := "c0", type := "include", text := "are female", chipLabel := "are female" },
                 { id := "c1", type := "include", text := "are asian", chipLabel := "are asian" }] }

def stage2EditState : ConversationState :=
  { current_stage := 2
    criteria := [{ id := "c0", type := "include", text := "are female", chipLabel := "are female" },
                 { id := "c1", type := "include", text := "are asian", chipLabel := "are asian" }] }

/-- C4 counterexample: at stage 0 the replace path stores the re-extracted
list WITHOUT the de-duplication pass; when the constrained re-extraction
returns two criteria with the same normalised text, both are kept —
violating the claimed "at most one criterion per normalized text" — and the
stored list differs from the de-duplicated list the claim prescribes. -/
theorem replace_edit_stage0_skips_dedup :
    ((handle_edit dupReplaceOracle "change asian to caucasian" none
        exampleEditState).1.criteria.map normText)
      = ["are asian", "are asian"]
  ∧ ¬ ((handle_edit dupReplaceOracle "change asian to caucasian" none
        exampleEditState).1.criteria.map normText).Nodup
  ∧ (handle_edit dupReplaceOracle "change asian to caucasian" none exampleEditState).1.criteria
      ≠ assignIds (dedupCriteria (mkCriteria dupReplaceOracle.chip
          (dupReplaceOracle.extractReplace exampleEditState.criteria
            (orMessage none "change asian to caucasian")))) := by
  refine ⟨by decide, by decide, by decide⟩

/-- C4 (amended): the text-normalised de-duplication pass (keeping at most
one criterion per normalised text and preferring `include` over `exclude` on
exact collisions) is applied to replace-type edits issued at stage ≥ 2; at
stage 0 the re-extracted complete list is stored as-is.  The claim's
concrete example — existing criteria female/asian, instruction "change asian
to caucasian", re-extraction returning the complete updated list — yields
exactly 2 entries, female unchanged and caucasian replacing asian, in stable
order. -/
theorem replace_edit_dedup_spec :
    (∀ (o : EditOracle) (message : String) (modifications : Option String)
        (s : ConversationState),
      2 ≤ s.current_stage →
      anyKeyword (stripStr (lowerStr message)) delete_keywords = false →
      anyKeyword (stripStr (lowerStr message)) add_keywords = false →
      anyKeyword (stripStr (lowerStr message)) replace_keywords = true →
      (handle_edit o message modifications s).1.criteria
        = assignIds (dedupCriteria (mkCriteria o.chip
            (o.extractReplace s.criteria (orMessage modifications message)))))
  ∧ (∀ l : List Criterion,
      ((dedupCriteria l).map normText).Nodup
      ∧ ∀ x ∈ dedupCriteria l, x.type ≠ "include" →
          ∀ y ∈ l, normText y = normText x → y.type ≠ "include")
  ∧ (handle_edit exampleReplaceOracle "change asian to caucasian" none
        exampleEditState).1.criteria
      = [{ id := "c0", type := "include", text := "are female", chipLabel := "are female" },
         { id := "c1", type := "include", text := "are caucasian", chipLabel := "are caucasian" }] := by
  refine ⟨?_, dedupCriteria_spec, by decide⟩
  intro o message modifications s h2 hdel hadd hrep
  have h0 : ¬ s.current_stage = 0 := by omega
  have h1 : ¬ s.current_stage = 1 := by omega
  simp [handle_edit, editCore, h0, h1, hdel, hadd, hrep]

theorem replace_edit_dedup_spec_witness :
    2 ≤ stage2EditState.current_stage
  ∧ anyKeyword (stripStr (lowerStr "change asian to caucasian")) delete_keywords = false
  ∧ anyKeyword (stripStr (lowerStr "change asian to caucasian")) add_keywords = false
  ∧ anyKeyword (stripStr (lowerStr "change asian to caucasian")) replace_keywords = true
  ∧ (handle_edit exampleReplaceOracle "change asian to caucasian" none
        stage2EditState).1.criteria
      = assignIds (dedupCriteria (mkCriteria exampleReplaceOracle.chip
          (exampleReplaceOracle.extractReplace stage2EditState.criteria
            (orMessage none "change asian to caucasian")))) :=
  ⟨by decide, by decide, by decide, by decide,
   replace_edit_dedup_spec.1 exampleReplaceOracle "change asian to caucasian" none
     stage2EditState (by decide) (by decide) (by decide) (by decide)⟩

/-! ### Word/sep tokenisation (model of the `\w`-based regexes)

Python's `re` scans left to right with greedy `\w+`; because `\w` and the
literal `.` are disjoint character classes, `findall(r'(\w+)\.(\w+)', s)`
and `findall(r'\b(\w+)\.None\b', s)` are equivalent to matching over the
sequence of maximal word runs and individual separator characters. -/

def isWordChar (c : Char) : Bool := c.isAlphanum || c == '_'

inductive Piece where
  | word (w : String)
  | sep (c : Char)
deriving DecidableEq

/-- Tokeniser worker; `acc` holds the current word run, reversed. -/
def tokenizePiecesAux (acc : List Char) : List Char → List Piece
  | [] => if acc = [] then [] else [Piece.word ⟨acc.reverse⟩]
  | c :: rest =>
    if isWordChar c then tokenizePiecesAux (c :: acc) rest
    else
      if acc = [] then Piece.sep c :: tokenizePiecesAux [] rest
      else Piece.word ⟨acc.reverse⟩ :: Piece.sep c :: tokenizePiecesAux [] rest

/-- Maximal word runs and individual separator characters, in order. -/
def tokenizePieces (l : List Char) : List Piece := tokenizePiecesAux [] l

/-- `re.findall(r'\b(\w+)\.None\b', sql)`: word run, dot, the exact run
`None`. -/
def noneRefsOfPieces : List Piece → List String
  | Piece.word w1 :: Piece.sep '.' :: Piece.word w2 :: rest =>
    if w2 = "None" then w1 :: noneRefsOfPieces rest
    else noneRefsOfPieces (Piece.word w2 :: rest)
  | _ :: rest => noneRefsOfPieces rest
  | [] => []

def noneRefTables (sql : String) : List String :=
  noneRefsOfPieces (tokenizePieces sql.data)

/-! ### Query execution (`AgentService.process_stage_3`) and the stage-3
advance handler (`ConversationalAgent._handle_advance`) -/

structure ExecConfig where
  dbExists : Bool
  runQuery : String → Except String QueryResults

/-- Outcome of `process_stage_3` plus whether `cursor.execute` was reached. -/
structure Stage3Outcome where
  result : Except String QueryResults
  executed : Bool

/-- The error message raised on a `table.None` reference (the set of invalid
tables is read off in first-occurrence order). -/
def invalid_columns_message (ts : List String) : String :=
  "Invalid SQL query: contains references to undefined columns ("
    ++ String.intercalate ", " (dedupStr ts)
    ++ "). Please regenerate the SQL query."

/-- `AgentService.process_stage_3`: missing database and `table.None`
detection precede execution; both produce error-status results. -/
def process_stage_3 (cfg : ExecConfig) (sql : String) : Stage3Outcome :=
  if cfg.dbExists = false then ⟨Except.error "Database not found", false⟩
  else
    match noneRefTables sql with
    | [] =>
      match cfg.runQuery sql with
      | Except.ok r => ⟨Except.ok r, true⟩
      | Except.error e => ⟨Except.error e, true⟩
    | t :: ts => ⟨Except.error (invalid_columns_message (t :: ts)), false⟩

/-- Oracles for the stage 0/1/2 pipeline calls made by `_handle_advance`. -/
structure AdvanceOracle where
  extractEntitiesMapSchema : List Criterion → List Criterion
  mapConcepts : List Criterion → List Criterion
  stage2sql : List Criterion → Option String
  exec : ExecConfig

/-- `ConversationalAgent._handle_advance` (state effect and reply). -/
def handle_advance (o : AdvanceOracle) (s : ConversationState) :
    ConversationState × AgentReply :=
  if s.current_stage = 0 then
    let cs := o.extractEntitiesMapSchema s.criteria
    ({ s with criteria := cs, schema_mapped := true, current_stage := 1 },
     AgentReply.schemaMapped cs)
  else if s.current_stage = 1 then
    let cs := o.mapConcepts s.criteria
    ({ s with criteria := cs, concepts_mapped := true, current_stage := 2 },
     AgentReply.conceptsMapped cs)
  else if s.current_stage = 2 then
    let sql := o.stage2sql s.criteria
    ({ s with sql_query := sql, current_stage := 3 }, AgentReply.sqlGenerated sql)
  else if s.current_stage = 3 then
    match s.sql_query with
    | none => (s, AgentReply.noSqlToExecute)
    | some q =>
      if q = "" then (s, AgentReply.noSqlToExecute)
      else
        match (process_stage_3 o.exec q).result with
        | Except.error msg =>
          if isSubstr "undefined columns" (lowerStr msg)
              || isSubstr "please regenerate" (lowerStr msg) then
            ({ s with sql_query := none, current_stage := 2 },
             AgentReply.regenerationNeeded msg)
          else (s, AgentReply.executionFailed msg)
        | Except.ok r =>
          ({ s with last_query_results := some r, current_stage := 4 },
           AgentReply.executed r)
  else (s, AgentReply.atFinalStage)

theorem lowerStr_append (a b : String) : lowerStr (a ++ b) = lowerStr a ++ lowerStr b := by
  apply String.ext
  simp [lowerStr, String.data_append]

theorem isSubstr_append_left (needle a b : String) (h : isSubstr needle a = true) :
    isSubstr needle (a ++ b) = true := by
  unfold isSubstr at h ⊢
  rw [decide_eq_true_eq] at h ⊢
  rw [String.data_append]
  exact h.trans ⟨[], b.data, by simp⟩

theorem invalid_columns_message_lower_contains (ts : List String) :
    isSubstr "undefined columns" (lowerStr (invalid_columns_message ts)) = true := by
  unfold invalid_columns_message
  rw [lowerStr_append, lowerStr_append]
  apply isSubstr_append_left
  apply isSubstr_append_left
  decide

/-- C8: when the SQL handed to the execution stage contains a `table.None`
token and the database file is present, the query is never executed and the
failure is not terminal: the advance handler clears the stored SQL, rolls
the stage back to 2, and replies asking for regeneration. -/
theorem table_none_rolls_back_to_stage_2 (o : AdvanceOracle) (s : ConversationState)
    (q : String) (hdb : o.exec.dbExists = true) (hst : s.current_stage = 3)
    (hq : s.sql_query = some q) (hinv : noneRefTables q ≠ []) :
    (process_stage_3 o.exec q).executed = false
  ∧ (handle_advance o s).1.sql_query = none
  ∧ (handle_advance o s).1.current_stage = 2
  ∧ (handle_advance o s).2
      = AgentReply.regenerationNeeded (invalid_columns_message (noneRefTables q)) := by
  have hqne : ¬ q = "" := by
    intro h
    exact hinv (by rw [h]; rfl)
  have hproc : process_stage_3 o.exec q
      = ⟨Except.error (invalid_columns_message (noneRefTables q)), false⟩ := by
    unfold process_stage_3
    rw [hdb]
    simp only [Bool.true_eq_false, if_false]
    cases hts : noneRefTables q with
    | nil => exact absurd hts hinv
    | cons t rest => simp [hts]
  have hcond : (isSubstr "undefined columns"
        (lowerStr (invalid_columns_message (noneRefTables q)))
      || isSubstr "please regenerate"
        (lowerStr (invalid_columns_message (noneRefTables q)))) = true := by
    rw [invalid_columns_message_lower_contains]
    rfl
  refine ⟨by rw [hproc], ?_, ?_, ?_⟩
  all_goals
    unfold handle_advance
    rw [if_neg (by omega), if_neg (by omega), if_neg (by omega), if_pos hst, hq]
    simp only [hqne, if_false, hproc, hcond, if_true]

def sampleExec : ExecConfig := ⟨true, fun _ => Except.ok ⟨0⟩⟩

def sampleAdvanceOracle : AdvanceOracle :=
  { extractEntitiesMapSchema := fun l => l
    mapConcepts := fun l => l
    stage2sql := fun _ => none
    exec := sampleExec }

def sampleStage3State : ConversationState :=
  { current_stage := 3
    sql_query := some "SELECT patient.subject_id FROM patient WHERE patient.None = 1" }

theorem table_none_rolls_back_to_stage_2_witness :
    sampleAdvanceOracle.exec.dbExists = true
  ∧ sampleStage3State.current_stage = 3
  ∧ sampleStage3State.sql_query
      = some "SELECT patient.subject_id FROM patient WHERE patient.None = 1"
  ∧ noneRefTables "SELECT patient.subject_id FROM patient WHERE patient.None = 1" ≠ []
  ∧ (process_stage_3 sampleAdvanceOracle.exec
      "SELECT patient.subject_id FROM patient WHERE patient.None = 1").executed = false
  ∧ (handle_advance sampleAdvanceOracle sampleStage3State).1.sql_query = none
  ∧ (handle_advance sampleAdvanceOracle sampleStage3State).1.current_stage = 2 :=
  ⟨rfl, rfl, rfl, by decide,
   (table_none_rolls_back_to_stage_2 sampleAdvanceOracle sampleStage3State
      "SELECT patient.subject_id FROM patient WHERE patient.None = 1"
      rfl rfl rfl (by decide)).1,
   (table_none_rolls_back_to_stage_2 sampleAdvanceOracle sampleStage3State
      "SELECT patient.subject_id FROM patient WHERE patient.None = 1"
      rfl rfl rfl (by decide)).2.1,
   (table_none_rolls_back_to_stage_2 sampleAdvanceOracle sampleStage3State
      "SELECT patient.subject_id FROM patient WHERE patient.None = 1"
      rfl rfl rfl (by decide)).2.2.1⟩

/-! ### Query assembly (`AgentService._build_sql_query`) -/

/-- `re.findall(r'(\w+)\.(\w+)', s)` over the piece sequence: a word run,
a dot, a word run; the scan resumes after a match, and a word run followed
by a non-dot separator cannot start a match. -/
def refsOfPieces : List Piece → List (String × String)
  | [] => []
  | Piece.sep _ :: rest => refsOfPieces rest
  | Piece.word w1 :: Piece.sep c :: Piece.word w2 :: rest =>
    if c = '.' then (w1, w2) :: refsOfPieces rest
    else refsOfPieces (Piece.word w2 :: rest)
  | Piece.word _ :: rest => refsOfPieces rest

def extractRefs (s : String) : List (String × String) :=
  refsOfPieces (tokenizePieces s.data)

/-- Python's `str.join`. -/
def joinSep (sep : String) : List String → String
  | [] => ""
  | [x] => x
  | x :: rest => x ++ sep ++ joinSep sep rest

/-- The WHERE-clause item contributed by one criterion (`None`/empty SQL
expressions are skipped by the `if not sql_expr: continue` guard). -/
def whereItem (c : Criterion) : Option String :=
  match c.sql_expression with
  | none => none
  | some e =>
    if e = "" then none
    else if c.type = "include" then some ("(" ++ e ++ ")")
    else some ("NOT (" ++ e ++ ")")

def whereClauses (criteria : List Criterion) : List String :=
  criteria.filterMap whereItem

/-- Whether a criterion carries a truthy SQL expression. -/
def truthyExpr (c : Criterion) : Bool :=
  match c.sql_expression with
  | some e => e != ""
  | none => false

/-- The referenced-table set, in first-occurrence order. -/
def requiredTablesOf (criteria : List Criterion) : List String :=
  dedupStr (criteria.flatMap (fun c =>
    match c.sql_expression with
    | none => []
    | some e => if e = "" then [] else (extractRefs e).map Prod.fst))

/-- The final string assembly of `_build_sql_query`:
`SELECT root.rootPk` / `FROM root` / joins / `WHERE whereClause`. -/
def assembleQuery (root rootPk : String) (joinStrs : List String)
    (whereClause : String) : String :=
  let selectClause := "SELECT " ++ root ++ "." ++ rootPk
  let q1 := selectClause ++ "\nFROM " ++ root
  let q2 := if joinStrs = [] then q1 else q1 ++ "\n" ++ joinSep "\n" joinStrs
  q2 ++ "\nWHERE " ++ whereClause

/-- `AgentService._build_sql_query`; `none` exactly when root-table selection
raises (nothing referenced and empty catalog). -/
def build_sql_query (schema : Schema) (schema_keys : SchemaKeys)
    (criteria : List Criterion) : Option String :=
  let required := requiredTablesOf criteria
  let wcs := whereClauses criteria
  match determine_root_table schema schema_keys required with
  | none => none
  | some root =>
    some (assembleQuery root (get_primary_key schema schema_keys root)
      ((build_joins schema schema_keys root required).map renderJoin)
      (if wcs = [] then "1=1" else joinSep " AND " wcs))

/-! Membership helpers used to trace every name appearing in the assembled
query back to the catalog, the key graph, or the criteria's expressions. -/

/-- All field/table names reachable from the catalog and key graph. -/
def allNames (schema : Schema) (ks : SchemaKeys) : List String :=
  schema.map Prod.fst
  ++ schema.flatMap Prod.snd
  ++ ks.flatMap (fun p =>
      (match p.2.pk with | some x => [x] | none => []) ++ p.2.fks.map Prod.fst)

theorem alistGet?_mem {α : Type} {l : List (String × α)} {k : String} {v : α}
    (h : alistGet? l k = some v) : (k, v) ∈ l := by
  induction l with
  | nil => simp [alistGet?] at h
  | cons p rest ih =>
    unfold alistGet? at h
    by_cases hk : p.1 = k
    · rw [if_pos hk] at h
      cases h
      have hp : (k, p.2) = p := by
        cases p
        simp only [] at hk
        rw [hk]
      rw [hp]
      exact List.mem_cons_self _ _
    · rw [if_neg hk] at h
      exact List.mem_cons_of_mem _ (ih h)

theorem get_primary_key_mem (schema : Schema) (ks : SchemaKeys) (t : String) :
    get_primary_key schema ks t ∈ allNames schema ks
  ∨ get_primary_key schema ks t = "id" := by
  have hfall : pkFallback schema t ∈ allNames schema ks ∨ pkFallback schema t = "id" := by
    unfold pkFallback
    cases hs : alistGet? schema t with
    | none => exact Or.inr rfl
    | some fields =>
      simp only []
      cases hf : (pkFallback.pkPatterns t).find? (fun p => fields.contains p) with
      | some p =>
        simp only [hf]
        left
        have hp : fields.contains p = true := List.find?_some hf
        have hpm : p ∈ fields := by simpa using hp
        unfold allNames
        refine List.mem_append_left _ (List.mem_append_right _ ?_)
        exact List.mem_flatMap.mpr ⟨(t, fields), alistGet?_mem hs, hpm⟩
      | none =>
        simp only [hf]
        cases fields with
        | nil => exact Or.inr rfl
        | cons fld rest =>
          left
          unfold allNames
          refine List.mem_append_left _ (List.mem_append_right _ ?_)
          exact List.mem_flatMap.mpr ⟨(t, fld :: rest), alistGet?_mem hs,
            List.mem_cons_self _ _⟩
  unfold get_primary_key
  cases hk : alistGet? ks t with
  | none => exact hfall
  | some e =>
    simp only []
    cases hpk : e.pk with
    | none => exact hfall
    | some pk =>
      simp only []
      by_cases hne : pk = ""
      · rw [if_pos hne]
        exact hfall
      · rw [if_neg hne]
        left
        unfold allNames
        refine List.mem_append_right _ ?_
        refine List.mem_flatMap.mpr ⟨(t, e), alistGet?_mem hk, ?_⟩
        rw [hpk]
        exact List.mem_append_left _ (List.mem_singleton.mpr rfl)

theorem fk_key_mem (schema : Schema) (ks : SchemaKeys) (t key target : String)
    (h : (key, target) ∈ fksOf ks t) : key ∈ allNames schema ks := by
  unfold fksOf at h
  cases hk : alistGet? ks t with
  | none => rw [hk] at h; simp at h
  | some e =>
    rw [hk] at h
    unfold allNames
    refine List.mem_append_right _ ?_
    refine List.mem_flatMap.mpr ⟨(t, e), alistGet?_mem hk, ?_⟩
    refine List.mem_append_right _ ?_
    exact List.mem_map.mpr ⟨(key, target), h, rfl⟩

theorem determine_root_table_mem (schema : Schema) (ks : SchemaKeys)
    (tables : List String) (r : String)
    (h : determine_root_table schema ks tables = some r) :
    r ∈ tables ∨ r ∈ schema.map Prod.fst := by
  unfold determine_root_table at h
  cases hf : tables.find? (fun t => hasTruthyPk ks t) with
  | some t =>
    rw [hf] at h
    cases h
    exact Or.inl (List.mem_of_find?_eq_some hf)
  | none =>
    rw [hf] at h
    cases tables with
    | cons t rest =>
      cases h
      exact Or.inl (List.mem_cons_self _ _)
    | nil =>
      simp only [] at h
      cases hh : (schema.map Prod.fst).head? with
      | none => rw [hh] at h; cases h
      | some x =>
        rw [hh] at h
        cases h
        exact Or.inr (List.mem_of_mem_head? hh)

theorem dedupStrAux_subset (l : List String) :
    ∀ (seen : List String) (x : String), x ∈ dedupStrAux seen l → x ∈ l := by
  induction l with
  | nil => intro seen x hx; simp [dedupStrAux] at hx
  | cons s rest ih =>
    intro seen x hx
    unfold dedupStrAux at hx
    by_cases hs : s ∈ seen
    · rw [if_pos hs] at hx
      exact List.mem_cons_of_mem _ (ih seen x hx)
    · rw [if_neg hs] at hx
      rcases List.mem_cons.mp hx with h | h
      · exact h ▸ List.mem_cons_self _ _
      · exact List.mem_cons_of_mem _ (ih _ x h)

/-- Word pieces of the tokeniser are infixes of the tokenised text. -/
theorem tokenizePiecesAux_word_part (l : List Char) :
    ∀ (acc : List Char) (w : String),
      Piece.word w ∈ tokenizePiecesAux acc l → w.data <:+: (acc.reverse ++ l) := by
  induction l with
  | nil =>
    intro acc w hw
    unfold tokenizePiecesAux at hw
    by_cases hacc : acc = []
    · rw [if_pos hacc] at hw
      simp at hw
    · rw [if_neg hacc] at hw
      rcases List.mem_singleton.mp hw with h
      cases h
      exact ⟨[], [], by simp⟩
  | cons c rest ih =>
    intro acc w hw
    unfold tokenizePiecesAux at hw
    by_cases hword : isWordChar c = true
    · rw [if_pos hword] at hw
      have := ih (c :: acc) w hw
      simpa [List.append_assoc] using this
    · rw [if_neg hword] at hw
      by_cases hacc : acc = []
      · rw [if_pos hacc] at hw
        rcases List.mem_cons.mp hw with h | h
        · cases h
        · have := ih [] w h
          simp only [List.reverse_nil, List.nil_append] at this
          exact this.trans ⟨acc.reverse ++ [c], [], by simp⟩
      · rw [if_neg hacc] at hw
        rcases List.mem_cons.mp hw with h | h
        · cases h
          exact ⟨[], c :: rest, by simp⟩
        · rcases List.mem_cons.mp h with h2 | h2
          · cases h2
          · have := ih [] w h2
            simp only [List.reverse_nil, List.nil_append] at this
            exact this.trans ⟨acc.reverse ++ [c], [], by simp⟩

/-- Both components of every extracted `table.field` reference come from
word pieces of the scanned string. -/
theorem refsOfPieces_word_mem :
    ∀ (P : List Piece) (t f : String), (t, f) ∈ refsOfPieces P →
      Piece.word t ∈ P ∧ Piece.word f ∈ P := by
  intro P
  induction P using refsOfPieces.induct with
  | case1 =>
    intro t f htf
    simp [refsOfPieces] at htf
  | case2 c rest ih =>
    intro t f htf
    rw [show refsOfPieces (Piece.sep c :: rest) = refsOfPieces rest from rfl] at htf
    have := ih t f htf
    exact ⟨List.mem_cons_of_mem _ this.1, List.mem_cons_of_mem _ this.2⟩
  | case3 w1 w2 rest ih =>
    intro t f htf
    rw [show refsOfPieces (Piece.word w1 :: Piece.sep '.' :: Piece.word w2 :: rest)
        = (w1, w2) :: refsOfPieces rest from rfl] at htf
    rcases List.mem_cons.mp htf with h | h
    · cases h
      exact ⟨List.mem_cons_self _ _,
        List.mem_cons_of_mem _ (List.mem_cons_of_mem _ (List.mem_cons_self _ _))⟩
    · have := ih t f h
      exact ⟨List.mem_cons_of_mem _ (List.mem_cons_of_mem _ (List.mem_cons_of_mem _ this.1)),
        List.mem_cons_of_mem _ (List.mem_cons_of_mem _ (List.mem_cons_of_mem _ this.2))⟩
  | case4 w1 c w2 rest hne ih =>
    intro t f htf
    rw [show refsOfPieces (Piece.word w1 :: Piece.sep c :: Piece.word w2 :: rest)
        = if c = '.' then (w1, w2) :: refsOfPieces rest
          else refsOfPieces (Piece.word w2 :: rest) from rfl, if_neg hne] at htf
    have := ih t f htf
    refine ⟨?_, ?_⟩
    · rcases List.mem_cons.mp this.1 with h | h
      · exact h ▸ List.mem_cons_of_mem _ (List.mem_cons_of_mem _ (List.mem_cons_self _ _))
      · exact List.mem_cons_of_mem _ (List.mem_cons_of_mem _ (List.mem_cons_of_mem _ h))
    · rcases List.mem_cons.mp this.2 with h | h
      · exact h ▸ List.mem_cons_of_mem _ (List.mem_cons_of_mem _ (List.mem_cons_self _ _))
      · exact List.mem_cons_of_mem _ (List.mem_cons_of_mem _ (List.mem_cons_of_mem _ h))
  | case5 w rest hshape ih =>
    intro t f htf
    have hred : refsOfPieces (Piece.word w :: rest) = refsOfPieces rest := by
      cases rest with
      | nil => rfl
      | cons p rest2 =>
        cases p with
        | word w2 => rfl
        | sep c2 =>
          cases rest2 with
          | nil => rfl
          | cons q rest3 =>
            cases q with
            | sep c3 => rfl
            | word w2 => exact absurd rfl (hshape c2 w2 rest3)
    rw [hred] at htf
    have := ih t f htf
    exact ⟨List.mem_cons_of_mem _ this.1, List.mem_cons_of_mem _ this.2⟩

theorem extractRefs_part (s : String) (t f : String)
    (h : (t, f) ∈ extractRefs s) : t.data <:+: s.data ∧ f.data <:+: s.data := by
  unfold extractRefs at h
  have hm := refsOfPieces_word_mem _ t f h
  have h1 := tokenizePiecesAux_word_part s.data [] t hm.1
  have h2 := tokenizePiecesAux_word_part s.data [] f hm.2
  simpa using And.intro h1 h2

/-- A field name that can appear in a rendered JOIN: a catalog / key-graph
name, or the literal `"id"` fallback. -/
def FieldOk (schema : Schema) (ks : SchemaKeys) (f : String) : Prop :=
  f ∈ allNames schema ks ∨ f = "id"

def JoinFieldsOk (schema : Schema) (ks : SchemaKeys) (j : JoinClause) : Prop :=
  FieldOk schema ks j.leftField ∧ FieldOk schema ks j.rightField

theorem forwardStep_fieldsOk (schema : Schema) (ks : SchemaKeys)
    (required : List String) (current : String) (st : BfsState)
    (h : ∀ j ∈ st.joins, JoinFieldsOk schema ks j) :
    ∀ j ∈ (forwardStep schema ks required current st).joins, JoinFieldsOk schema ks j := by
  unfold forwardStep
  have hgen : ∀ (l : List (String × String)), (∀ x ∈ l, x ∈ fksOf ks current) →
      ∀ (st : BfsState), (∀ j ∈ st.joins, JoinFieldsOk schema ks j) →
      ∀ j ∈ (l.foldl
          (fun st p =>
            if p.2 ∈ required ∧ p.2 ∉ st.visited then
              { visited := st.visited ++ [p.2], queue := st.queue ++ [p.2],
                joins := st.joins
                  ++ [⟨p.2, current, p.1, p.2, get_primary_key schema ks p.2⟩] }
            else st)
          st).joins, JoinFieldsOk schema ks j := by
    intro l
    induction l with
    | nil => intro _ st h j hj; exact h j hj
    | cons p rest ih =>
      intro hsub st h j hj
      simp only [List.foldl_cons] at hj
      refine ih (fun x hx => hsub x (List.mem_cons_of_mem _ hx)) _ ?_ j hj
      intro j2 hj2
      by_cases hcond : p.2 ∈ required ∧ p.2 ∉ st.visited
      · rw [if_pos hcond] at hj2
        rcases List.mem_append.mp hj2 with h2 | h2
        · exact h j2 h2
        · rw [List.mem_singleton] at h2
          subst h2
          constructor
          · exact Or.inl (fk_key_mem schema ks current p.1 p.2
              (by simpa using hsub p (List.mem_cons_self _ _)))
          · exact get_primary_key_mem schema ks p.2
      · rw [if_neg hcond] at hj2
        exact h j2 hj2
  exact hgen (fksOf ks current) (fun x hx => hx) st h

theorem reverseStep_fieldsOk (schema : Schema) (ks : SchemaKeys)
    (required : List String) (current : String) (st : BfsState)
    (h : ∀ j ∈ st.joins, JoinFieldsOk schema ks j) :
    ∀ j ∈ (reverseStep schema ks required current st).joins, JoinFieldsOk schema ks j := by
  unfold reverseStep
  induction required generalizing st with
  | nil => intro j hj; exact h j hj
  | cons other rest ih =>
    intro j hj
    simp only [List.foldl_cons] at hj
    refine ih _ ?_ j hj
    intro j2 hj2
    by_cases hvis : other ∈ st.visited
    · rw [if_pos hvis] at hj2
      exact h j2 hj2
    · rw [if_neg hvis] at hj2
      cases hfind : (fksOf ks other).find? (fun p => p.2 == current) with
      | some kv =>
        rw [hfind] at hj2
        simp only [] at hj2
        rcases List.mem_append.mp hj2 with h2 | h2
        · exact h j2 h2
        · rw [List.mem_singleton] at h2
          subst h2
          constructor
          · exact get_primary_key_mem schema ks current
          · refine Or.inl (fk_key_mem schema ks other kv.1 kv.2 ?_)
            exact List.mem_of_find?_eq_some hfind
      | none =>
        rw [hfind] at hj2
        exact h j2 hj2

theorem bfsLoop_fieldsOk (schema : Schema) (ks : SchemaKeys) (required : List String)
    (fuel : Nat) (st : BfsState)
    (h : ∀ j ∈ st.joins, JoinFieldsOk schema ks j) :
    ∀ j ∈ (bfsLoop schema ks required fuel st).joins, JoinFieldsOk schema ks j := by
  induction fuel generalizing st with
  | zero => exact h
  | succ fuel ih =>
    unfold bfsLoop
    cases hq : st.queue with
    | nil => exact h
    | cons current rest =>
      simp only []
      by_cases hlen : st.visited.length < required.length
      · rw [if_pos hlen]
        apply ih
        apply reverseStep_fieldsOk
        apply forwardStep_fieldsOk
        exact h
      · rw [if_neg hlen]
        exact h

theorem build_joins_fieldsOk (schema : Schema) (ks : SchemaKeys) (root : String)
    (required : List String) :
    ∀ j ∈ build_joins schema ks root required, JoinFieldsOk schema ks j := by
  unfold build_joins
  apply bfsLoop_fieldsOk
  intro j hj
  simp at hj

/-! Counting occurrences in the assembled query: the query decomposes into
segments terminated by single separator characters. -/

def glue : List (List Char × Char) → List Char → List Char
  | [], tail => tail
  | (seg, c) :: rest, tail => seg ++ c :: glue rest tail

theorem countSubl_glue (pat : List Char) (hne : pat ≠ []) :
    ∀ (chunks : List (List Char × Char)) (tail : List Char),
      (∀ p ∈ chunks, p.2 ∉ pat) →
      countSubl pat (glue chunks tail)
        = (chunks.map (fun p => countSubl pat p.1)).sum + countSubl pat tail := by
  intro chunks
  induction chunks with
  | nil => intro tail _; simp [glue]
  | cons p rest ih =>
    intro tail hsep
    cases p with
    | mk seg c =>
      simp only [glue]
      rw [countSubl_append_sep hne (hsep (seg, c) (List.mem_cons_self _ _)) seg
        (glue rest tail)]
      rw [ih tail (fun x hx => hsep x (List.mem_cons_of_mem _ hx))]
      simp only [List.map_cons, List.sum_cons]
      omega

theorem glue_append (a b : List (List Char × Char)) (tail : List Char) :
    glue (a ++ b) tail = glue a (glue b tail) := by
  induction a with
  | nil => rfl
  | cons p rest ih =>
    cases p with
    | mk seg c => simp [glue, ih]

def joinChunk (j : JoinClause) : List (List Char × Char) :=
  [(("JOIN" : String).data, ' '), (j.newTable.data, ' '), (("ON" : String).data, ' '),
   (j.leftTable.data, '.'), (j.leftField.data, ' '), (("=" : String).data, ' '),
   (j.rightTable.data, '.'), (j.rightField.data, Char.ofNat 10)]

def joinChunks (js : List JoinClause) : List (List Char × Char) := js.flatMap joinChunk

theorem renderJoin_glue (j : JoinClause) (tail : List Char) :
    (renderJoin j).data ++ Char.ofNat 10 :: tail = glue (joinChunk j) tail := by
  have h1 : ("JOIN " : String).data = ("JOIN" : String).data ++ [' '] := rfl
  have h2 : (" ON " : String).data = ' ' :: (("ON" : String).data ++ [' ']) := rfl
  have h3 : ("." : String).data = ['.'] := rfl
  have h4 : (" = " : String).data = ' ' :: (("=" : String).data ++ [' ']) := rfl
  simp [renderJoin, joinChunk, glue, String.data_append, h1, h2, h3, h4]

theorem joinSep_joins_glue :
    ∀ (js : List JoinClause) (tail : List Char), js ≠ [] →
      (joinSep "\n" (js.map renderJoin)).data ++ Char.ofNat 10 :: tail
        = glue (joinChunks js) tail := by
  intro js
  induction js with
  | nil => intro tail h; exact absurd rfl h
  | cons j rest ih =>
    intro tail _
    cases rest with
    | nil =>
      have hchunks : joinChunks [j] = joinChunk j := by simp [joinChunks]
      rw [hchunks]
      exact renderJoin_glue j tail
    | cons j2 rest2 =>
      have hstep : joinSep "\n" ((j :: j2 :: rest2).map renderJoin)
          = renderJoin j ++ "\n" ++ joinSep "\n" ((j2 :: rest2).map renderJoin) := rfl
      have hchunks : joinChunks (j :: j2 :: rest2) = joinChunk j ++ joinChunks (j2 :: rest2) := by
        simp [joinChunks]
      have hnl : ("\n" : String).data = [Char.ofNat 10] := rfl
      rw [hstep, hchunks, glue_append]
      rw [← ih tail (by simp), ← renderJoin_glue]
      simp [String.data_append, hnl]

theorem countSubl_joinSep_and (pat : List Char) (hne : pat ≠ []) (hsp : ' ' ∉ pat)
    (hAND : countSubl pat ("AND" : String).data = 0) :
    ∀ (items : List String), (∀ it ∈ items, countSubl pat it.data = 0) →
      countSubl pat (joinSep " AND " items).data = 0 := by
  intro items
  induction items with
  | nil => intro _; rfl
  | cons x rest ih =>
    intro hit
    cases rest with
    | nil => exact hit x (List.mem_cons_self _ _)
    | cons y rest2 =>
      have hstep : joinSep " AND " (x :: y :: rest2)
          = x ++ " AND " ++ joinSep " AND " (y :: rest2) := rfl
      have hlit : (" AND " : String).data = ' ' :: (("AND" : String).data ++ [' ']) := rfl
      have hdata : (x ++ " AND " ++ joinSep " AND " (y :: rest2)).data
          = x.data ++ ' ' :: (("AND" : String).data
              ++ ' ' :: (joinSep " AND " (y :: rest2)).data) := by
        simp [String.data_append, hlit]
      rw [hstep, hdata, countSubl_append_sep hne hsp, countSubl_append_sep hne hsp]
      rw [hit x (List.mem_cons_self _ _), hAND,
        ih (fun it h => hit it (List.mem_cons_of_mem _ h))]

theorem countSubl_whereItem (pat : List Char) (hne : pat ≠ []) (hlp : '(' ∉ pat)
    (hrp : ')' ∉ pat) (hsp : ' ' ∉ pat) (hNOT : countSubl pat ("NOT" : String).data = 0)
    (c : Criterion) (w : String) (hw : whereItem c = some w)
    (he : ∀ e, c.sql_expression = some e → countSubl pat e.data = 0) :
    countSubl pat w.data = 0 := by
  unfold whereItem at hw
  cases hsql : c.sql_expression with
  | none => rw [hsql] at hw; cases hw
  | some e =>
    rw [hsql] at hw
    simp only [] at hw
    by_cases hee : e = ""
    · rw [if_pos hee] at hw; cases hw
    · rw [if_neg hee] at hw
      have he0 := he e hsql
      by_cases hty : c.type = "include"
      · rw [if_pos hty] at hw
        cases hw
        have h1 : (("(" ++ e ++ ")" : String)).data = '(' :: (e.data ++ ')' :: []) := by
          simp [String.data_append]
        rw [h1, countSubl_cons_sep hne hlp, countSubl_append_sep hne hrp, he0]
        rfl
      · rw [if_neg hty] at hw
        cases hw
        have hlit : ("NOT (" : String).data
            = ("NOT" : String).data ++ ' ' :: '(' :: [] := rfl
        have h1 : (("NOT (" ++ e ++ ")" : String)).data
            = ("NOT" : String).data ++ ' ' :: ('(' :: (e.data ++ ')' :: [])) := by
          simp [String.data_append, hlit]
        rw [h1, countSubl_append_sep hne hsp, hNOT, countSubl_cons_sep hne hlp,
          countSubl_append_sep hne hrp, he0]
        rfl

/-- When anything is referenced, the selected root is itself referenced. -/
theorem determine_root_table_mem_of_ne (schema : Schema) (ks : SchemaKeys)
    (tables : List String) (r : String) (hne : tables ≠ [])
    (h : determine_root_table schema ks tables = some r) : r ∈ tables := by
  unfold determine_root_table at h
  cases hf : tables.find? (fun t => hasTruthyPk ks t) with
  | some t =>
    rw [hf] at h
    cases h
    exact List.mem_of_find?_eq_some hf
  | none =>
    rw [hf] at h
    cases tables with
    | nil => exact absurd rfl hne
    | cons t rest =>
      cases h
      exact List.mem_cons_self _ _

/-- With no required tables, the traversal emits no joins. -/
theorem build_joins_nil_required (schema : Schema) (ks : SchemaKeys) (root : String) :
    build_joins schema ks root [] = [] := rfl

theorem joinChunks_sep_not_mem (pat : List Char) (hsp : ' ' ∉ pat) (hdot : '.' ∉ pat)
    (hnl : Char.ofNat 10 ∉ pat) (js : List JoinClause) :
    ∀ p ∈ joinChunks js, p.2 ∉ pat := by
  intro p hp
  rcases List.mem_flatMap.mp hp with ⟨j, _, hpj⟩
  unfold joinChunk at hpj
  simp only [List.mem_cons, List.not_mem_nil, or_false] at hpj
  rcases hpj with h|h|h|h|h|h|h|h <;> subst h <;> first
    | exact hsp
    | exact hdot
    | exact hnl

theorem joinChunks_sum_zero (pat : List Char) (js : List JoinClause)
    (hJOIN : countSubl pat ("JOIN" : String).data = 0)
    (hON : countSubl pat ("ON" : String).data = 0)
    (hEQ : countSubl pat ("=" : String).data = 0)
    (hcomp : ∀ j ∈ js, countSubl pat j.newTable.data = 0
      ∧ countSubl pat j.leftTable.data = 0 ∧ countSubl pat j.leftField.data = 0
      ∧ countSubl pat j.rightTable.data = 0 ∧ countSubl pat j.rightField.data = 0) :
    ((joinChunks js).map (fun p => countSubl pat p.1)).sum = 0 := by
  induction js with
  | nil => rfl
  | cons j rest ih =>
    have hj := hcomp j (List.mem_cons_self _ _)
    have hchunks : joinChunks (j :: rest) = joinChunk j ++ joinChunks rest := by
      simp [joinChunks]
    rw [hchunks, List.map_append, List.sum_append,
      ih (fun x hx => hcomp x (List.mem_cons_of_mem _ hx))]
    simp [joinChunk, hJOIN, hON, hEQ, hj.1, hj.2.1, hj.2.2.1, hj.2.2.2.1, hj.2.2.2.2]

/-- Occurrence count in the assembled query: only `SELECT` and `WHERE`
occurrences survive when every name, field and WHERE clause is free of the
pattern. -/
theorem countTok_assembleQuery (pat : String) (root rootPk W : String)
    (js : List JoinClause)
    (hne : pat.data ≠ [])
    (hsp : ' ' ∉ pat.data) (hnl : Char.ofNat 10 ∉ pat.data) (hdot : '.' ∉ pat.data)
    (hFROM : countTok pat "FROM" = 0) (hJOIN : countTok pat "JOIN" = 0)
    (hON : countTok pat "ON" = 0) (hEQ : countTok pat "=" = 0)
    (hroot : countTok pat root = 0) (hrpk : countTok pat rootPk = 0)
    (hjcomp : ∀ j ∈ js, countTok pat j.newTable = 0
      ∧ countTok pat j.leftTable = 0 ∧ countTok pat j.leftField = 0
      ∧ countTok pat j.rightTable = 0 ∧ countTok pat j.rightField = 0)
    (hW : countTok pat W = 0) :
    countTok pat (assembleQuery root rootPk (js.map renderJoin) W)
      = countTok pat "SELECT" + countTok pat "WHERE" := by
  have hS : ("SELECT " : String).data = ("SELECT" : String).data ++ [' '] := rfl
  have hD : ("." : String).data = ['.'] := rfl
  have hF : ("\nFROM " : String).data
      = Char.ofNat 10 :: (("FROM" : String).data ++ [' ']) := rfl
  have hWl : ("\nWHERE " : String).data
      = Char.ofNat 10 :: (("WHERE" : String).data ++ [' ']) := rfl
  have hsepbase : ∀ p ∈ [(("SELECT" : String).data, ' '), (root.data, '.'),
      (rootPk.data, Char.ofNat 10), (("FROM" : String).data, ' '),
      (root.data, Char.ofNat 10)], p.2 ∉ pat.data := by
    intro p hp
    simp only [List.mem_cons, List.not_mem_nil, or_false] at hp
    rcases hp with h|h|h|h|h <;> subst h <;> first
      | exact hsp
      | exact hdot
      | exact hnl
  by_cases hjnil : js = []
  · subst hjnil
    have hdata : (assembleQuery root rootPk (([] : List JoinClause).map renderJoin) W).data
        = glue [(("SELECT" : String).data, ' '), (root.data, '.'),
            (rootPk.data, Char.ofNat 10), (("FROM" : String).data, ' '),
            (root.data, Char.ofNat 10), (("WHERE" : String).data, ' ')] W.data := by
      simp [assembleQuery, glue, String.data_append, hS, hD, hF, hWl]
    unfold countTok
    rw [hdata, countSubl_glue pat.data hne _ _ (by
      intro p hp
      simp only [List.mem_cons, List.not_mem_nil, or_false] at hp
      rcases hp with h|h|h|h|h|h <;> subst h <;> first
        | exact hsp
        | exact hdot
        | exact hnl)]
    unfold countTok at hroot hrpk hFROM hW
    simp [hroot, hrpk, hFROM, hW]
  · have hmapne : js.map renderJoin ≠ [] := by
      intro h
      exact hjnil (List.map_eq_nil_iff.mp h)
    have hdata : (assembleQuery root rootPk (js.map renderJoin) W).data
        = glue [(("SELECT" : String).data, ' '), (root.data, '.'),
            (rootPk.data, Char.ofNat 10), (("FROM" : String).data, ' '),
            (root.data, Char.ofNat 10)]
          ((joinSep "\n" (js.map renderJoin)).data
            ++ Char.ofNat 10 :: (("WHERE" : String).data ++ ' ' :: W.data)) := by
      have hn : ("\n" : String).data = [Char.ofNat 10] := rfl
      simp [assembleQuery, hmapne, glue, String.data_append, hS, hD, hF, hWl, hn]
    unfold countTok
    rw [hdata, countSubl_glue pat.data hne _ _ hsepbase]
    rw [joinSep_joins_glue js _ hjnil]
    rw [countSubl_glue pat.data hne _ _
      (joinChunks_sep_not_mem pat.data hsp hdot hnl js)]
    rw [joinChunks_sum_zero pat.data js hJOIN hON hEQ (by
      intro j hj
      have := hjcomp j hj
      exact this)]
    rw [countSubl_append_sep hne hsp]
    unfold countTok at hroot hrpk hFROM hW
    simp [hroot, hrpk, hFROM, hW]

theorem countTok_build_sql_query (pat : String) (schema : Schema) (ks : SchemaKeys)
    (criteria : List Criterion) (q : String)
    (hne : pat.data ≠ [])
    (hsp : ' ' ∉ pat.data) (hnl : Char.ofNat 10 ∉ pat.data) (hdot : '.' ∉ pat.data)
    (hlp : '(' ∉ pat.data) (hrp : ')' ∉ pat.data)
    (hFROM : countTok pat "FROM" = 0) (hJOIN : countTok pat "JOIN" = 0)
    (hON : countTok pat "ON" = 0) (hEQ : countTok pat "=" = 0)
    (hNOT : countTok pat "NOT" = 0) (hAND : countTok pat "AND" = 0)
    (h1e1 : countTok pat "1=1" = 0) (hid : countTok pat "id" = 0)
    (hnames : ∀ n ∈ allNames schema ks, countTok pat n = 0)
    (hexprs : ∀ c ∈ criteria, ∀ e, c.sql_expression = some e → countTok pat e = 0)
    (hq : build_sql_query schema ks criteria = some q) :
    countTok pat q = countTok pat "SELECT" + countTok pat "WHERE" := by
  unfold build_sql_query at hq
  simp only [] at hq
  cases hroot : determine_root_table schema ks (requiredTablesOf criteria) with
  | none => rw [hroot] at hq; cases hq
  | some root =>
    rw [hroot] at hq
    simp only [Option.some.injEq] at hq
    have hreq_clean : ∀ t ∈ requiredTablesOf criteria, countTok pat t = 0 := by
      intro t ht
      unfold requiredTablesOf at ht
      have ht2 := dedupStrAux_subset _ [] t ht
      rcases List.mem_flatMap.mp ht2 with ⟨c, hc, htc⟩
      cases hsql : c.sql_expression with
      | none => rw [hsql] at htc; simp at htc
      | some e =>
        rw [hsql] at htc
        simp only [] at htc
        by_cases hee : e = ""
        · rw [if_pos hee] at htc; simp at htc
        · rw [if_neg hee] at htc
          rcases List.mem_map.mp htc with ⟨tf, href, hfst⟩
          have hinf := (extractRefs_part e tf.1 tf.2 href).1
          have hclean := hexprs c hc e hsql
          unfold countTok at hclean ⊢
          rw [← hfst]
          exact countSubl_eq_zero_of_part hne hclean hinf
    have hname_clean : ∀ n, n ∈ schema.map Prod.fst → countTok pat n = 0 := by
      intro n hn
      apply hnames
      unfold allNames
      exact List.mem_append_left _ (List.mem_append_left _ hn)
    have hroot_clean : countTok pat root = 0 := by
      rcases determine_root_table_mem schema ks _ root hroot with h | h
      · exact hreq_clean root h
      · exact hname_clean root h
    have hFieldOk_clean : ∀ f, FieldOk schema ks f → countTok pat f = 0 := by
      intro f hf
      rcases hf with h | h
      · exact hnames f h
      · rw [h]; exact hid
    have hrpk_clean : countTok pat (get_primary_key schema ks root) = 0 :=
      hFieldOk_clean _ (get_primary_key_mem schema ks root)
    have hjcomp : ∀ j ∈ build_joins schema ks root (requiredTablesOf criteria),
        countTok pat j.newTable = 0 ∧ countTok pat j.leftTable = 0
        ∧ countTok pat j.leftField = 0 ∧ countTok pat j.rightTable = 0
        ∧ countTok pat j.rightField = 0 := by
      intro j hj
      have hfields := build_joins_fieldsOk schema ks root (requiredTablesOf criteria) j hj
      by_cases hreqnil : requiredTablesOf criteria = []
      · rw [hreqnil] at hj
        rw [build_joins_nil_required] at hj
        simp at hj
      · have hrootmem : root ∈ requiredTablesOf criteria :=
          determine_root_table_mem_of_ne schema ks _ root hreqnil hroot
        have inv0 : BfsInv root (requiredTablesOf criteria) ⟨[root], [root], []⟩ :=
          { vnodup := List.nodup_singleton root,
            vscope := fun t ht => Or.inl (List.mem_singleton.mp ht),
            qsub := fun t ht => ht,
            jnew_mem := by intro j hj; simp at hj,
            jnew_req := by intro j hj; simp at hj,
            jleft := by intro j hj; simp at hj,
            jright := by intro j hj; simp at hj,
            jnodup := List.nodup_nil }
        have inv := bfsLoop_inv root schema ks (requiredTablesOf criteria)
          ((requiredTablesOf criteria).length + 1) _ inv0
        have hvis_clean : ∀ t, t = root ∨ t ∈ requiredTablesOf criteria →
            countTok pat t = 0 := by
          rintro t (h | h)
          · exact h ▸ hroot_clean
          · exact hreq_clean t h
        refine ⟨hreq_clean _ (inv.jnew_req j hj), ?_, ?_, ?_, ?_⟩
        · exact hvis_clean _ (inv.vscope _ (inv.jleft j hj))
        · exact hFieldOk_clean _ hfields.1
        · rw [inv.jright j hj]
          exact hreq_clean _ (inv.jnew_req j hj)
        · exact hFieldOk_clean _ hfields.2
    have hW_clean : countTok pat (if whereClauses criteria = [] then "1=1"
        else joinSep " AND " (whereClauses criteria)) = 0 := by
      by_cases hwnil : whereClauses criteria = []
      · rw [if_pos hwnil]; exact h1e1
      · rw [if_neg hwnil]
        unfold countTok
        apply countSubl_joinSep_and pat.data hne hsp hAND
        intro it hit
        rcases List.mem_filterMap.mp hit with ⟨c, hc, hwc⟩
        exact countSubl_whereItem pat.data hne hlp hrp hsp hNOT c it hwc
          (fun e hsql => hexprs c hc e hsql)
    rw [← hq]
    exact countTok_assembleQuery pat root (get_primary_key schema ks root) _
      (build_joins schema ks root (requiredTablesOf criteria))
      hne hsp hnl hdot hFROM hJOIN hON hEQ hroot_clean hrpk_clean hjcomp hW_clean

theorem whereClauses_length (criteria : List Criterion) :
    (whereClauses criteria).length = (criteria.filter truthyExpr).length := by
  unfold whereClauses
  induction criteria with
  | nil => rfl
  | cons c rest ih =>
    cases hsql : c.sql_expression with
    | none =>
      simp [List.filterMap_cons, List.filter_cons, whereItem, truthyExpr, hsql, ih]
    | some e =>
      by_cases hee : e = ""
      · simp [List.filterMap_cons, List.filter_cons, whereItem, truthyExpr, hsql, hee, ih]
      · by_cases hty : c.type = "include"
        · simp [List.filterMap_cons, List.filter_cons, whereItem, truthyExpr, hsql, hee,
            hty, ih, bne_iff_ne]
        · simp [List.filterMap_cons, List.filter_cons, whereItem, truthyExpr, hsql, hee,
            hty, ih, bne_iff_ne]

theorem assembleQuery_where_suffix (root rootPk : String) (joinStrs : List String)
    (W : String) :
    ∃ pre, assembleQuery root rootPk joinStrs W = pre ++ "\nWHERE " ++ W :=
  ⟨if joinStrs = [] then "SELECT " ++ root ++ "." ++ rootPk ++ "\nFROM " ++ root
    else "SELECT " ++ root ++ "." ++ rootPk ++ "\nFROM " ++ root ++ "\n"
      ++ joinSep "\n" joinStrs, by
    unfold assembleQuery
    by_cases h : joinStrs = [] <;> simp [h]⟩

/-- C2 (amended): for catalogs, key graphs and SQL expressions whose names
and texts do not themselves contain the substrings `SELECT` or `WHERE`, the
assembled query contains exactly one `SELECT` and exactly one `WHERE`; the
number of AND-joined WHERE items equals the number of criteria with a truthy
(non-null, nonempty) SQL expression; and the query ends in
`WHERE <AND-joined clauses | "1=1">`. -/
theorem build_sql_query_spec (schema : Schema) (ks : SchemaKeys)
    (criteria : List Criterion) (q : String)
    (hnames : ∀ n ∈ allNames schema ks, countTok "SELECT" n = 0 ∧ countTok "WHERE" n = 0)
    (hexprs : ∀ c ∈ criteria, ∀ e, c.sql_expression = some e →
        countTok "SELECT" e = 0 ∧ countTok "WHERE" e = 0)
    (hq : build_sql_query schema ks criteria = some q) :
    countTok "SELECT" q = 1
  ∧ countTok "WHERE" q = 1
  ∧ (whereClauses criteria).length = (criteria.filter truthyExpr).length
  ∧ ∃ pre, q = pre ++ "\nWHERE "
      ++ (if whereClauses criteria = [] then "1=1"
          else joinSep " AND " (whereClauses criteria)) := by
  have hS := countTok_build_sql_query "SELECT" schema ks criteria q
    (by decide) (by decide) (by decide) (by decide) (by decide) (by decide)
    (by decide) (by decide) (by decide) (by decide) (by decide) (by decide)
    (by decide) (by decide)
    (fun n hn => (hnames n hn).1) (fun c hc e he => (hexprs c hc e he).1) hq
  have hWc := countTok_build_sql_query "WHERE" schema ks criteria q
    (by decide) (by decide) (by decide) (by decide) (by decide) (by decide)
    (by decide) (by decide) (by decide) (by decide) (by decide) (by decide)
    (by decide) (by decide)
    (fun n hn => (hnames n hn).2) (fun c hc e he => (hexprs c hc e he).2) hq
  refine ⟨?_, ?_, whereClauses_length criteria, ?_⟩
  · rw [hS]; decide
  · rw [hWc]; decide
  · unfold build_sql_query at hq
    simp only [] at hq
    cases hroot : determine_root_table schema ks (requiredTablesOf criteria) with
    | none => rw [hroot] at hq; cases hq
    | some root =>
      rw [hroot] at hq
      simp only [Option.some.injEq] at hq
      rcases assembleQuery_where_suffix root (get_primary_key schema ks root)
        ((build_joins schema ks root (requiredTablesOf criteria)).map renderJoin)
        (if whereClauses criteria = [] then "1=1"
          else joinSep " AND " (whereClauses criteria)) with ⟨pre, hpre⟩
      exact ⟨pre, by rw [← hq, hpre]⟩

def cSchema : Schema := [("t", ["id", "a"])]

def cKs : SchemaKeys := [("t", ⟨some "id", []⟩)]

def cCritBad : Criterion :=
  { id := "c0", type := "include", text := "x", chipLabel := "x",
    sql_expression := some "t.a IN (SELECT t.b)" }

def cCritGood : Criterion :=
  { id := "c0", type := "include", text := "x", chipLabel := "x",
    sql_expression := some "t.a = 1" }

/-- C2 counterexample: a criterion whose (LLM-produced) SQL expression
contains a subquery makes the assembled query contain two `SELECT`
substrings, so "exactly one SELECT for every list of criteria" is false on
the code as stated. -/
theorem build_sql_query_subquery_two_selects :
    build_sql_query cSchema cKs [cCritBad]
      = some "SELECT t.id\nFROM t\nWHERE (t.a IN (SELECT t.b))"
  ∧ countTok "SELECT" "SELECT t.id\nFROM t\nWHERE (t.a IN (SELECT t.b))" = 2 :=
  ⟨by decide, by decide⟩

theorem build_sql_query_spec_witness :
    (∀ n ∈ allNames cSchema cKs, countTok "SELECT" n = 0 ∧ countTok "WHERE" n = 0)
  ∧ (∀ c ∈ [cCritGood], ∀ e, c.sql_expression = some e →
      countTok "SELECT" e = 0 ∧ countTok "WHERE" e = 0)
  ∧ build_sql_query cSchema cKs [cCritGood] = some "SELECT t.id\nFROM t\nWHERE (t.a = 1)"
  ∧ (countTok "SELECT" "SELECT t.id\nFROM t\nWHERE (t.a = 1)" = 1
     ∧ countTok "WHERE" "SELECT t.id\nFROM t\nWHERE (t.a = 1)" = 1
     ∧ (whereClauses [cCritGood]).length = ([cCritGood].filter truthyExpr).length
     ∧ ∃ pre, "SELECT t.id\nFROM t\nWHERE (t.a = 1)" = pre ++ "\nWHERE "
         ++ (if whereClauses [cCritGood] = [] then "1=1"
             else joinSep " AND " (whereClauses [cCritGood]))) :=
  ⟨by decide, by decide, by decide,
   build_sql_query_spec cSchema cKs [cCritGood] "SELECT t.id\nFROM t\nWHERE (t.a = 1)"
     (by decide) (by decide) (by decide)⟩

/-! ### Artifact cache (`AtlasFileCache.get_cached_files`)

The world holds the in-process map (one entry per atlas id), the Redis
metadata records keyed by `atlas_files_{atlas_id}` (TTL expiry folded into
lookup), and the set of file-system paths that exist.  A bundle is
represented by the metadata record it was loaded from; `_load_files_from_cache`
only runs after `_verify_files_exist` has confirmed every referenced path. -/

structure CacheMetadata where
  cache_dir : String
  files : List (String × String)
deriving DecidableEq

structure CacheWorld where
  memory : List (String × CacheMetadata)
  redis : List (String × CacheMetadata)
  disk : List String
deriving DecidableEq

def cacheKey (atlas_id : String) : String := "atlas_files_" ++ atlas_id

/-- `AtlasFileCache._verify_files_exist`. -/
def verify_files_exist (disk : List String) (md : CacheMetadata) : Bool :=
  disk.contains md.cache_dir && md.files.all (fun p => disk.contains p.2)

/-- `cache.delete(key)`. -/
def eraseKey {α : Type} (l : List (String × α)) (k : String) : List (String × α) :=
  l.filter (fun p => !(p.1 == k))

/-- `AtlasFileCache.get_cached_files`: in-memory map, then metadata record
plus on-disk verification (dropping the record on any missing file), else a
miss.  Returns the served bundle (if any) and the updated world. -/
def get_cached_files (w : CacheWorld) (atlas_id : String) :
    Option CacheMetadata × CacheWorld :=
  match alistGet? w.memory atlas_id with
  | some b => (some b, w)
  | none =>
    match alistGet? w.redis (cacheKey atlas_id) with
    | none => (none, w)
    | some md =>
      if verify_files_exist w.disk md then
        (some md, { w with memory := (atlas_id, md) :: w.memory })
      else
        (none, { w with redis := eraseKey w.redis (cacheKey atlas_id) })

theorem alistGet?_eraseKey {α : Type} (l : List (String × α)) (k : String) :
    alistGet? (eraseKey l k) k = none := by
  induction l with
  | nil => rfl
  | cons p rest ih =>
    unfold eraseKey at ih ⊢
    by_cases hk : p.1 = k
    · simp only [List.filter_cons, hk]
      simp [ih]
    · simp only [List.filter_cons]
      rw [show (!(p.1 == k)) = true by simp [hk]]
      simp only [alistGet?, if_neg hk]
      exact ih

/-- C9 counterexample: with the bundle already in the in-process map, a
stale metadata record whose backing file is missing from disk is neither
treated as a miss nor dropped — `get` serves the in-memory bundle and leaves
the record in place, so the claim's unconditional "whenever the metadata
record exists but a backing file is missing, get misses and drops the
record" is false on the code. -/
theorem cache_get_memory_hit_skips_verification :
    alistGet? (CacheWorld.mk [("a", ⟨"d", []⟩)]
        [("atlas_files_a", ⟨"d", [("schema", "f1")]⟩)] []).redis (cacheKey "a")
      = some ⟨"d", [("schema", "f1")]⟩
  ∧ verify_files_exist (CacheWorld.mk [("a", ⟨"d", []⟩)]
        [("atlas_files_a", ⟨"d", [("schema", "f1")]⟩)] []).disk
        ⟨"d", [("schema", "f1")]⟩ = false
  ∧ (get_cached_files (CacheWorld.mk [("a", ⟨"d", []⟩)]
        [("atlas_files_a", ⟨"d", [("schema", "f1")]⟩)] []) "a").1
      = some ⟨"d", []⟩
  ∧ (get_cached_files (CacheWorld.mk [("a", ⟨"d", []⟩)]
        [("atlas_files_a", ⟨"d", [("schema", "f1")]⟩)] []) "a").2.redis
      = [("atlas_files_a", ⟨"d", [("schema", "f1")]⟩)] :=
  ⟨by decide, by decide, by decide, by decide⟩

/-- C9 (amended): when the in-process map has no entry for the key, a
metadata record with any missing backing file makes `get` return a miss,
drop the metadata record, and leave the in-process map unchanged; and any
bundle served from the disk path has every referenced file verified present
(never partially populated).  A bundle served from the in-process map is
returned as stored, without re-verification. -/
theorem cache_get_never_partial_bundle (w : CacheWorld) (aid : String) :
    (∀ md, alistGet? w.memory aid = none →
      alistGet? w.redis (cacheKey aid) = some md →
      verify_files_exist w.disk md = false →
        (get_cached_files w aid).1 = none
      ∧ alistGet? (get_cached_files w aid).2.redis (cacheKey aid) = none
      ∧ (get_cached_files w aid).2.memory = w.memory)
  ∧ (∀ md, alistGet? w.memory aid = none → (get_cached_files w aid).1 = some md →
      verify_files_exist w.disk md = true) := by
  constructor
  · intro md hmem hred hver
    unfold get_cached_files
    rw [hmem, hred]
    simp only []
    rw [hver]
    simp only [Bool.false_eq_true, if_false]
    exact ⟨trivial, alistGet?_eraseKey w.redis (cacheKey aid), trivial⟩
  · intro md hmem hres
    unfold get_cached_files at hres
    rw [hmem] at hres
    cases hred : alistGet? w.redis (cacheKey aid) with
    | none => rw [hred] at hres; cases hres
    | some md2 =>
      rw [hred] at hres
      simp only [] at hres
      cases hver : verify_files_exist w.disk md2 with
      | false =>
        rw [hver] at hres
        simp at hres
      | true =>
        rw [hver] at hres
        simp only [if_true] at hres
        cases hres
        exact hver

theorem cache_get_never_partial_bundle_witness :
    alistGet? (CacheWorld.mk [] [("atlas_files_a", ⟨"d", [("schema", "f1")]⟩)] []).memory "a"
      = none
  ∧ alistGet? (CacheWorld.mk [] [("atlas_files_a", ⟨"d", [("schema", "f1")]⟩)] []).redis
      (cacheKey "a") = some ⟨"d", [("schema", "f1")]⟩
  ∧ verify_files_exist (CacheWorld.mk [] [("atlas_files_a", ⟨"d", [("schema", "f1")]⟩)] []).disk
      ⟨"d", [("schema", "f1")]⟩ = false
  ∧ (get_cached_files (CacheWorld.mk [] [("atlas_files_a", ⟨"d", [("schema", "f1")]⟩)] [])
      "a").1 = none
  ∧ alistGet? (get_cached_files (CacheWorld.mk []
      [("atlas_files_a", ⟨"d", [("schema", "f1")]⟩)] []) "a").2.redis (cacheKey "a") = none :=
  ⟨by decide, by decide, by decide,
   ((cache_get_never_partial_bundle (CacheWorld.mk []
      [("atlas_files_a", ⟨"d", [("schema", "f1")]⟩)] []) "a").1
      ⟨"d", [("schema", "f1")]⟩ (by decide) (by decide) (by decide)).1,
   ((cache_get_never_partial_bundle (CacheWorld.mk []
      [("atlas_files_a", ⟨"d", [("schema", "f1")]⟩)] []) "a").1
      ⟨"d", [("schema", "f1")]⟩ (by decide) (by decide) (by decide)).2.1⟩

end CohortBuilder
